import Mathlib

/-!
# Verification of the jigsnap geometry core

Shallow embedding of the geometry/export core of the jigsnap application
(`src/lib/contour.ts`, `src/lib/jig-utils.ts`, the paper-detection module,
and `src/lib/stl-export.ts`).

Conventions of the embedding:
* JavaScript `number` values are modelled as exact rationals (`ℚ`).
* `Math.sqrt` is not rational-valued, so every function that calls it is
  parameterised by a model `sq : ℚ → ℚ` of the square-root applied to the
  (rational) radicand.  None of the verified properties depend on the value
  of `sq` beyond `sq 0 = 0` where stated.
* `Math.round x` is `⌊x + 1/2⌋` (JavaScript rounds half towards +∞).
* `Math.ceil` is `Int.ceil`.
* Fallible array indexing is modelled with `List.getD`; the source only
  indexes in bounds at the places this matters.
-/

namespace JigSnap

/-- `Point` from `src/lib/types.ts`: `{x, y}`. -/
structure Point where
  x : ℚ
  y : ℚ
deriving DecidableEq, Repr, Inhabited

/-- `Contour` from `src/lib/types.ts`: `{points, area}`. -/
structure Contour where
  points : List Point
  area : ℚ
deriving DecidableEq, Repr, Inhabited

/-! ## Scale calibration (paper detection module, `calculatePixelsPerMm`) -/

/-- `PAPER_SIZES` keys from the paper-detection module. -/
inductive PaperSize where
  | letter
  | a4
deriving DecidableEq, Repr

/-- `PAPER_SIZES[ps].width` (mm). -/
def paperSizeWidth : PaperSize → ℚ
  | .letter => 2159 / 10
  | .a4 => 210

/-- `PAPER_SIZES[ps].height` (mm). -/
def paperSizeHeight : PaperSize → ℚ
  | .letter => 2794 / 10
  | .a4 => 297

/-- `A4Paper` from `src/lib/types.ts`: detected corners plus pixel width/height. -/
structure A4Paper where
  corners : List Point
  width : ℚ
  height : ℚ
deriving DecidableEq, Repr

/-- `calculatePixelsPerMm` from the paper-detection module (the variant with
orientation matching: long/short axis of the detected quad divided by the
long/short physical paper dimension, averaged). -/
def calculatePixelsPerMm (paper : A4Paper) (paperSize : PaperSize := .letter) : ℚ :=
  let paperLong := max (paperSizeWidth paperSize) (paperSizeHeight paperSize)
  let paperShort := min (paperSizeWidth paperSize) (paperSizeHeight paperSize)
  let detectedLong := max paper.width paper.height
  let detectedShort := min paper.width paper.height
  let pxPerMmLong := detectedLong / paperLong
  let pxPerMmShort := detectedShort / paperShort
  (pxPerMmLong + pxPerMmShort) / 2

/-- The calibration formula in the words of spec §4.6 (`calibrateFromReference`):
long-axis and short-axis pixel lengths (max/min of the width/height fields),
each divided by the corresponding known physical long/short dimension,
averaged.  Used to compare the implementation against the spec text. -/
def calibrateFromReferenceSpec (detectedW detectedH knownW knownH : ℚ) : ℚ :=
  (max detectedW detectedH / max knownW knownH
    + min detectedW detectedH / min knownW knownH) / 2

/-! ## Jig sizing (`src/lib/jig-utils.ts`) -/

/-- A `{width, height}` record. -/
structure SizeWH where
  width : ℚ
  height : ℚ
deriving DecidableEq, Repr

/-- `computeSquareJigSizeMm` from `src/lib/jig-utils.ts`. -/
def computeSquareJigSizeMm (contourBounds : SizeWH) (pixelsPerMm : ℚ) : ℚ :=
  let widthMm := contourBounds.width / pixelsPerMm
  let heightMm := contourBounds.height / pixelsPerMm
  let maxDim := max widthMm heightMm
  let withPadding := maxDim + 20
  ((⌈withPadding / 10⌉ : ℤ) : ℚ) * 10

/-! ## Bounding boxes and deduplication (`src/lib/contour.ts`) -/

/-- The bounds record produced by `getBounds` inside `calculateBoundingBoxIoU`. -/
structure Bounds where
  minX : ℚ
  minY : ℚ
  maxX : ℚ
  maxY : ℚ
deriving DecidableEq, Repr

/-- `Math.min(...)` over a spread list; the source only applies it to the
coordinate lists of contours, which have at least 3 points, so the `[]` case
(JavaScript `Infinity`) never arises and is given a junk value. -/
def listMinQ : List ℚ → ℚ
  | [] => 0
  | x :: xs => xs.foldl min x

/-- `Math.max(...)` over a spread list (see `listMinQ` about the `[]` case). -/
def listMaxQ : List ℚ → ℚ
  | [] => 0
  | x :: xs => xs.foldl max x

/-- `getBounds` from `calculateBoundingBoxIoU` in `src/lib/contour.ts`. -/
def getBounds (pts : List Point) : Bounds :=
  ⟨listMinQ (pts.map Point.x), listMinQ (pts.map Point.y),
    listMaxQ (pts.map Point.x), listMaxQ (pts.map Point.y)⟩

/-- `calculateBoundingBoxIoU` from `src/lib/contour.ts`. -/
def calculateBoundingBoxIoU (contourA contourB : List Point) : ℚ :=
  let a := getBounds contourA
  let b := getBounds contourB
  let interMinX := max a.minX b.minX
  let interMinY := max a.minY b.minY
  let interMaxX := min a.maxX b.maxX
  let interMaxY := min a.maxY b.maxY
  if interMaxX ≤ interMinX ∨ interMaxY ≤ interMinY then 0
  else
    let interArea := (interMaxX - interMinX) * (interMaxY - interMinY)
    let areaA := (a.maxX - a.minX) * (a.maxY - a.minY)
    let areaB := (b.maxX - b.minX) * (b.maxY - b.minY)
    let unionArea := areaA + areaB - interArea
    interArea / unionArea

/-- An entry of the `allContours` list in `detectAllContours`:
`{ contour, area, method }`. -/
structure Cand where
  contour : List Point
  area : ℚ
  method : String
deriving DecidableEq, Repr, Inhabited

/-- The inner `for (const existing of uniqueContours)` loop of the
deduplication pass in `detectAllContours` (`src/lib/contour.ts` lines
247–260): scan the accepted entries in order; at the first entry whose
bounding-box IoU with the candidate exceeds 0.5, stop (`break`) and overwrite
that entry's `contour`/`area`/`method` fields with the candidate's when the
candidate has strictly more points.  Returns the (possibly updated) accepted
list together with the `isDuplicate` flag. -/
def dedupeScan (candidate : Cand) : List Cand → List Cand × Bool
  | [] => ([], false)
  | existing :: rest =>
      if 1/2 < calculateBoundingBoxIoU candidate.contour existing.contour then
        (if existing.contour.length < candidate.contour.length then
            ⟨candidate.contour, candidate.area, candidate.method⟩ :: rest
          else existing :: rest, true)
      else
        let r := dedupeScan candidate rest
        (existing :: r.1, r.2)

/-- One iteration of the deduplication pass: scan the accepted list; append
the candidate if it duplicated no accepted entry. -/
def dedupeStep (uniques : List Cand) (candidate : Cand) : List Cand :=
  let r := dedupeScan candidate uniques
  if r.2 then r.1 else r.1 ++ [candidate]

/-- The full deduplication pass of `detectAllContours`: fold `dedupeStep` over
the candidates in discovery order, starting from an empty accepted list. -/
def dedupe (allContours : List Cand) : List Cand :=
  allContours.foldl dedupeStep []

/-! ## Polygon simplification (`simplifyContour` in `src/lib/contour.ts`)

The Ramer-Douglas-Peucker recursion.  `Math.sqrt` appears inside
`pointToLineDistance`; as everywhere in this file it is abstracted by a
parameter `sq` applied to the rational radicand. -/

/-- `pointToLineDistance` from `simplifyContour` (`src/lib/contour.ts` lines
514–521): distance from `p` to the segment `a`–`b` (clamped projection);
degenerate segments fall back to the point distance. -/
def pointToLineDistance (sq : ℚ → ℚ) (p a b : Point) : ℚ :=
  let dx := b.x - a.x
  let dy := b.y - a.y
  let len2 := dx * dx + dy * dy
  if len2 = 0 then sq ((p.x - a.x) ^ 2 + (p.y - a.y) ^ 2)
  else
    let t := max 0 (min 1 (((p.x - a.x) * dx + (p.y - a.y) * dy) / len2))
    let projX := a.x + t * dx
    let projY := a.y + t * dy
    sq ((p.x - projX) ^ 2 + (p.y - projY) ^ 2)

/-- The `for` loop of `rdp` (`src/lib/contour.ts` lines 501–505): scan the
listed distances (of the interior points, starting at index `i = 1`),
tracking `(maxDist, maxIdx)`, updating only on a strict increase. -/
def scanAux : List ℚ → ℕ → ℚ → ℕ → ℚ × ℕ
  | [], _, md, mi => (md, mi)
  | d :: rest, i, md, mi =>
      if md < d then scanAux rest (i + 1) d i else scanAux rest (i + 1) md mi

/-- The distances, to the chord from `pts[0]` to `pts[pts.length-1]`, of the
interior points `pts[1] … pts[pts.length-2]`, in order. -/
def interiorDists (sq : ℚ → ℚ) (pts : List Point) : List ℚ :=
  ((pts.drop 1).dropLast).map fun p => pointToLineDistance sq p pts.headI pts.getLastI

/-- The `(maxDist, maxIdx)` pair computed by the loop of `rdp`. -/
def maxDistIdx (sq : ℚ → ℚ) (pts : List Point) : ℚ × ℕ :=
  scanAux (interiorDists sq pts) 1 0 0

theorem scanAux_fst_mono (l : List ℚ) (i : ℕ) (md : ℚ) (mi : ℕ) :
    md ≤ (scanAux l i md mi).1 := by
  induction l generalizing i md mi with
  | nil => exact le_refl _
  | cons d rest IH =>
      rw [scanAux]
      by_cases h : md < d
      · rw [if_pos h]
        exact le_of_lt (lt_of_lt_of_le h (IH _ _ _))
      · rw [if_neg h]
        exact IH _ _ _

theorem scanAux_fst_fixed (l : List ℚ) (i : ℕ) (md : ℚ) (mi : ℕ)
    (h : (scanAux l i md mi).1 = md) : ∀ v ∈ l, v ≤ md := by
  induction l generalizing i md mi with
  | nil => intro v hv; cases hv
  | cons d rest IH =>
      intro v hv
      rw [scanAux] at h
      by_cases hd : md < d
      · rw [if_pos hd] at h
        have := scanAux_fst_mono rest (i + 1) d i
        rw [h] at this
        exact absurd (lt_of_lt_of_le hd this) (lt_irrefl md)
      · rw [if_neg hd] at h
        rcases List.mem_cons.mp hv with rfl | hv'
        · exact le_of_not_lt hd
        · exact IH _ _ _ h v hv'

theorem scanAux_all_le (l : List ℚ) (i : ℕ) (md : ℚ) (mi : ℕ)
    (h : ∀ v ∈ l, v ≤ md) : scanAux l i md mi = (md, mi) := by
  induction l generalizing i md mi with
  | nil => rfl
  | cons d rest IH =>
      rw [scanAux, if_neg (not_lt.mpr (h d (List.mem_cons_self d rest)))]
      exact IH _ _ _ fun v hv => h v (List.mem_cons_of_mem d hv)

theorem scanAux_append_cons (pre : List ℚ) (v : ℚ) (suf : List ℚ) (i : ℕ)
    (md : ℚ) (mi : ℕ) (hpre : ∀ u ∈ pre, u < v) (hmd : md < v)
    (hsuf : ∀ u ∈ suf, u ≤ v) :
    scanAux (pre ++ v :: suf) i md mi = (v, i + pre.length) := by
  induction pre generalizing i md mi with
  | nil =>
      rw [List.nil_append, scanAux, if_pos hmd, scanAux_all_le suf (i + 1) v i hsuf]
      simp
  | cons u rest IH =>
      have hu : u < v := hpre u (List.mem_cons_self u rest)
      have hrest : ∀ w ∈ rest, w < v := fun w hw => hpre w (List.mem_cons_of_mem u hw)
      rw [List.cons_append, scanAux]
      by_cases h : md < u
      · rw [if_pos h, IH (i + 1) u i hrest hu]
        simp [List.length_cons]
        omega
      · rw [if_neg h, IH (i + 1) md mi hrest hmd]
        simp [List.length_cons]
        omega

theorem scanAux_spec (l : List ℚ) (i : ℕ) (md : ℚ) (mi : ℕ) :
    scanAux l i md mi = (md, mi)
    ∨ ∃ pre v suf, l = pre ++ v :: suf ∧ scanAux l i md mi = (v, i + pre.length)
        ∧ (∀ u ∈ pre, u < v) ∧ (∀ u ∈ suf, u ≤ v) ∧ md < v := by
  induction l generalizing i md mi with
  | nil => exact Or.inl rfl
  | cons d rest IH =>
      by_cases hd : md < d
      · rcases IH (i + 1) d i with h | ⟨pre, v, suf, hsplit, hval, hpre, hsuf, hlt⟩
        · refine Or.inr ⟨[], d, rest, rfl, ?_, ?_, ?_, hd⟩
          · rw [scanAux, if_pos hd, h]; simp
          · intro u hu; cases hu
          · exact fun u hu => scanAux_fst_fixed rest (i + 1) d i (by rw [h]) u hu
        · refine Or.inr ⟨d :: pre, v, suf, by rw [hsplit, List.cons_append], ?_, ?_, hsuf,
            lt_trans hd hlt⟩
          · rw [scanAux, if_pos hd, hval]
            simp [List.length_cons]
            omega
          · intro u hu
            rcases List.mem_cons.mp hu with rfl | hu'
            · exact hlt
            · exact hpre u hu'
      · rcases IH (i + 1) md mi with h | ⟨pre, v, suf, hsplit, hval, hpre, hsuf, hlt⟩
        · refine Or.inl ?_
          rw [scanAux, if_neg hd, h]
        · refine Or.inr ⟨d :: pre, v, suf, by rw [hsplit, List.cons_append], ?_, ?_, hsuf, hlt⟩
          · rw [scanAux, if_neg hd, hval]
            simp [List.length_cons]
            omega
          · intro u hu
            rcases List.mem_cons.mp hu with rfl | hu'
            · exact lt_of_le_of_lt (le_of_not_lt hd) hlt
            · exact hpre u hu'

theorem scanAux_snd_range (l : List ℚ) (i : ℕ) (md : ℚ) (mi : ℕ) :
    (scanAux l i md mi).2 = mi
    ∨ (i ≤ (scanAux l i md mi).2 ∧ (scanAux l i md mi).2 < i + l.length) := by
  rcases scanAux_spec l i md mi with h | ⟨pre, v, suf, hsplit, hval, -, -, -⟩
  · rw [h]; exact Or.inl rfl
  · rw [hval]
    refine Or.inr ⟨by omega, ?_⟩
    rw [hsplit]
    simp [List.length_append, List.length_cons]

/-- The loop index produced by `maxDistIdx` never exceeds `pts.length - 2`
(when an update happened at all). -/
theorem maxDistIdx_snd_le (sq : ℚ → ℚ) (pts : List Point)
    (h1 : 1 ≤ (maxDistIdx sq pts).2) : (maxDistIdx sq pts).2 ≤ pts.length - 2 := by
  have hr := scanAux_snd_range (interiorDists sq pts) 1 0 0
  have hlen : (interiorDists sq pts).length = pts.length - 2 := by
    simp [interiorDists]
    omega
  rcases hr with h | ⟨-, hub⟩
  · rw [maxDistIdx] at h1
    omega
  · rw [maxDistIdx] at h1 ⊢
    omega

/-- `rdp` from `simplifyContour` (`src/lib/contour.ts` lines 498–512).
The guard `1 ≤ maxIdx` is redundant with the source whenever the source
terminates: `maxIdx = 0` forces `maxDist = 0`, so `maxDist > eps` with
`maxIdx = 0` can only happen for a negative tolerance, on which the source
recursion does not terminate. -/
def rdp (sq : ℚ → ℚ) (eps : ℚ) (pts : List Point) : List Point :=
  if _h : pts.length ≤ 2 then pts
  else if h2 : eps < (maxDistIdx sq pts).1 ∧ 1 ≤ (maxDistIdx sq pts).2 then
    (rdp sq eps (pts.take ((maxDistIdx sq pts).2 + 1))).dropLast
      ++ rdp sq eps (pts.drop (maxDistIdx sq pts).2)
  else [pts.headI, pts.getLastI]
termination_by pts.length
decreasing_by
  · have hb := maxDistIdx_snd_le sq pts h2.2
    simp only [List.length_take]
    omega
  · simp only [List.length_drop]
    omega

/-! ### List glue facts used by the RDP proofs -/

theorem headI_append_left {A : List Point} (B : List Point) (h : A ≠ []) :
    (A ++ B).headI = A.headI := by
  cases A with
  | nil => exact absurd rfl h
  | cons a as => rfl

theorem getLastI_append_right (A : List Point) {B : List Point} (h : B ≠ []) :
    (A ++ B).getLastI = B.getLastI := by
  rw [List.getLastI_eq_getLast?, List.getLastI_eq_getLast?, List.getLast?_append]
  cases B with
  | nil => exact absurd rfl h
  | cons b bs => simp [List.getLast?_eq_getElem?]

theorem headI_dropLast {L : List Point} (h : 2 ≤ L.length) :
    L.dropLast.headI = L.headI := by
  cases L with
  | nil => simp at h
  | cons a as =>
      cases as with
      | nil => simp at h
      | cons b bs => rfl

theorem dropLast_append_getLastI {L : List Point} (h : L ≠ []) :
    L.dropLast ++ [L.getLastI] = L := by
  rw [List.getLastI_eq_getLast?, List.getLast?_eq_getLast L h]
  exact List.dropLast_append_getLast h

theorem take_one_eq_headI {L : List Point} (h : L ≠ []) :
    L.take 1 = [L.headI] := by
  cases L with
  | nil => exact absurd rfl h
  | cons a as => rfl

theorem take_getLastI {pts : List Point} {k : ℕ} (h : k < pts.length) :
    (pts.take (k + 1)).getLastI = pts.getD k default := by
  rw [List.getLastI_eq_getLast?, List.getLast?_eq_getElem?, List.getD_eq_getElem?_getD]
  have hlen : (pts.take (k + 1)).length = k + 1 := by
    simp [List.length_take]
    omega
  rw [hlen]
  simp [List.getElem?_take, h]

theorem drop_headI : ∀ (pts : List Point) (k : ℕ),
    (pts.drop k).headI = pts.getD k default
  | [], k => by cases k <;> rfl
  | a :: as, 0 => rfl
  | a :: as, k + 1 => drop_headI as k

theorem take_headI {pts : List Point} {k : ℕ} (hk : 1 ≤ k) (h : pts ≠ []) :
    (pts.take k).headI = pts.headI := by
  cases pts with
  | nil => exact absurd rfl h
  | cons a as =>
      cases k with
      | zero => omega
      | succ n => rfl

theorem dropLast_take {pts : List Point} {k : ℕ} (h : k < pts.length) :
    (pts.take (k + 1)).dropLast = pts.take k := by
  rw [List.dropLast_eq_take, List.take_take]
  have : (pts.take (k + 1)).length = k + 1 := by
    simp [List.length_take]
    omega
  rw [this]
  simp

theorem dropLast_drop (pts : List Point) (k : ℕ) :
    pts.dropLast.drop k = (pts.drop k).dropLast := by
  rw [List.dropLast_eq_take, List.dropLast_eq_take, List.drop_take]
  congr 1
  simp [List.length_drop]
  omega

theorem sublist_dropLast {l₁ l₂ : List Point} (h : List.Sublist l₁ l₂) :
    List.Sublist l₁.dropLast l₂.dropLast := by
  induction h with
  | slnil => exact List.Sublist.refl _
  | cons a h IH =>
      rename_i la lb
      cases lb with
      | nil =>
          have := List.sublist_nil.mp h
          subst this
          simp
      | cons b bs =>
          rw [List.dropLast_cons₂]
          exact IH.trans (List.sublist_cons_self a _)
  | cons₂ a h IH =>
      rename_i la lb
      cases la with
      | nil => simp
      | cons x xs =>
          have hlb : lb ≠ [] := by
            intro hnil
            subst hnil
            simp at h
          cases lb with
          | nil => exact absurd rfl hlb
          | cons y ys =>
              rw [List.dropLast_cons₂, List.dropLast_cons₂]
              exact List.Sublist.cons₂ a IH

/-! ### Structural lemmas about `rdp` -/

/-- Case analysis matching the three exits of `rdp`. -/
theorem rdp_cases (sq : ℚ → ℚ) (eps : ℚ) (pts : List Point) :
    (pts.length ≤ 2 ∧ rdp sq eps pts = pts)
    ∨ (2 < pts.length
        ∧ (eps < (maxDistIdx sq pts).1 ∧ 1 ≤ (maxDistIdx sq pts).2)
        ∧ rdp sq eps pts
          = (rdp sq eps (pts.take ((maxDistIdx sq pts).2 + 1))).dropLast
            ++ rdp sq eps (pts.drop (maxDistIdx sq pts).2))
    ∨ (2 < pts.length
        ∧ ¬(eps < (maxDistIdx sq pts).1 ∧ 1 ≤ (maxDistIdx sq pts).2)
        ∧ rdp sq eps pts = [pts.headI, pts.getLastI]) := by
  by_cases h : pts.length ≤ 2
  · refine Or.inl ⟨h, ?_⟩
    rw [rdp, dif_pos h]
  · by_cases h2 : eps < (maxDistIdx sq pts).1 ∧ 1 ≤ (maxDistIdx sq pts).2
    · refine Or.inr (Or.inl ⟨by omega, h2, ?_⟩)
      conv_lhs => rw [rdp]
      rw [dif_neg h, dif_pos h2]
    · refine Or.inr (Or.inr ⟨by omega, h2, ?_⟩)
      conv_lhs => rw [rdp]
      rw [dif_neg h, dif_neg h2]

theorem rdp_of_length_le (sq : ℚ → ℚ) (eps : ℚ) {pts : List Point}
    (h : pts.length ≤ 2) : rdp sq eps pts = pts := by
  rw [rdp, dif_pos h]

theorem rdp_length_ge_aux (sq : ℚ → ℚ) (eps : ℚ) :
    ∀ (n : ℕ) (pts : List Point), pts.length ≤ n → 2 ≤ pts.length →
      2 ≤ (rdp sq eps pts).length := by
  intro n
  induction n with
  | zero => intro pts hn h2; omega
  | succ n IH =>
      intro pts hn h2
      rcases rdp_cases sq eps pts with ⟨hle, heq⟩ | ⟨hgt, h2c, heq⟩ | ⟨hgt, h2c, heq⟩
      · rw [heq]; exact h2
      · rw [heq]
        have hmib : (maxDistIdx sq pts).2 ≤ pts.length - 2 := maxDistIdx_snd_le _ _ h2c.2
        have hRt : 2 ≤ (rdp sq eps (pts.drop (maxDistIdx sq pts).2)).length := by
          apply IH
          · simp only [List.length_drop]; omega
          · simp only [List.length_drop]; omega
        simp only [List.length_append]
        omega
      · rw [heq]; simp

theorem rdp_length_ge (sq : ℚ → ℚ) (eps : ℚ) {pts : List Point}
    (h2 : 2 ≤ pts.length) : 2 ≤ (rdp sq eps pts).length :=
  rdp_length_ge_aux sq eps pts.length pts le_rfl h2

theorem rdp_headI_aux (sq : ℚ → ℚ) (eps : ℚ) :
    ∀ (n : ℕ) (pts : List Point), pts.length ≤ n →
      (rdp sq eps pts).headI = pts.headI := by
  intro n
  induction n with
  | zero =>
      intro pts hn
      have : pts = [] := List.length_eq_zero.mp (by omega)
      subst this
      rw [rdp_of_length_le sq eps (by simp)]
  | succ n IH =>
      intro pts hn
      rcases rdp_cases sq eps pts with ⟨hle, heq⟩ | ⟨hgt, h2c, heq⟩ | ⟨hgt, h2c, heq⟩
      · rw [heq]
      · rw [heq]
        have hmib : (maxDistIdx sq pts).2 ≤ pts.length - 2 := maxDistIdx_snd_le _ _ h2c.2
        set mi := (maxDistIdx sq pts).2 with hmi
        have hLlen : 2 ≤ (rdp sq eps (pts.take (mi + 1))).length := by
          apply rdp_length_ge
          simp only [List.length_take]
          omega
        have hA : (rdp sq eps (pts.take (mi + 1))).dropLast ≠ [] := by
          intro hnil
          have := congrArg List.length hnil
          simp only [List.length_dropLast, List.length_nil] at this
          omega
        rw [headI_append_left _ hA, headI_dropLast hLlen,
          IH (pts.take (mi + 1)) (by simp only [List.length_take]; omega),
          take_headI (by omega) (by intro hnil; subst hnil; simp at hgt)]
      · rw [heq]
        rfl

theorem rdp_headI (sq : ℚ → ℚ) (eps : ℚ) (pts : List Point) :
    (rdp sq eps pts).headI = pts.headI :=
  rdp_headI_aux sq eps pts.length pts le_rfl

theorem getLastI_drop {pts : List Point} {k : ℕ} (h : k < pts.length) :
    (pts.drop k).getLastI = pts.getLastI := by
  have hne : pts.drop k ≠ [] := by
    intro hnil
    have := congrArg List.length hnil
    simp only [List.length_drop, List.length_nil] at this
    omega
  conv_rhs => rw [← List.take_append_drop k pts]
  rw [getLastI_append_right _ hne]

theorem rdp_getLastI_aux (sq : ℚ → ℚ) (eps : ℚ) :
    ∀ (n : ℕ) (pts : List Point), pts.length ≤ n →
      (rdp sq eps pts).getLastI = pts.getLastI := by
  intro n
  induction n with
  | zero =>
      intro pts hn
      have : pts = [] := List.length_eq_zero.mp (by omega)
      subst this
      rw [rdp_of_length_le sq eps (by simp)]
  | succ n IH =>
      intro pts hn
      rcases rdp_cases sq eps pts with ⟨hle, heq⟩ | ⟨hgt, h2c, heq⟩ | ⟨hgt, h2c, heq⟩
      · rw [heq]
      · rw [heq]
        have hmib : (maxDistIdx sq pts).2 ≤ pts.length - 2 := maxDistIdx_snd_le _ _ h2c.2
        set mi := (maxDistIdx sq pts).2 with hmi
        have hRtlen : 2 ≤ (rdp sq eps (pts.drop mi)).length := by
          apply rdp_length_ge
          simp only [List.length_drop]
          omega
        have hRt : rdp sq eps (pts.drop mi) ≠ [] := by
          intro hnil
          have := congrArg List.length hnil
          simp only [List.length_nil] at this
          omega
        rw [getLastI_append_right _ hRt,
          IH (pts.drop mi) (by simp only [List.length_drop]; omega),
          getLastI_drop (by omega)]
      · rw [heq]
        rfl

theorem rdp_getLastI (sq : ℚ → ℚ) (eps : ℚ) (pts : List Point) :
    (rdp sq eps pts).getLastI = pts.getLastI :=
  rdp_getLastI_aux sq eps pts.length pts le_rfl

theorem pair_sublist {pts : List Point} (h : 2 ≤ pts.length) :
    List.Sublist [pts.headI, pts.getLastI] pts := by
  cases pts with
  | nil => simp at h
  | cons a rest =>
      have hrest : rest ≠ [] := by
        intro hnil
        subst hnil
        simp at h
      have hlast : (a :: rest).getLastI = rest.getLastI := by
        rw [List.getLastI_eq_getLast?, List.getLastI_eq_getLast?]
        cases rest with
        | nil => exact absurd rfl hrest
        | cons b bs => simp [List.getLast?_eq_getElem?]
      rw [hlast]
      show List.Sublist (a :: [rest.getLastI]) (a :: rest)
      refine List.Sublist.cons₂ a (List.singleton_sublist.mpr ?_)
      rw [List.getLastI_eq_getLast?, List.getLast?_eq_getLast rest hrest]
      exact List.getLast_mem hrest

theorem rdp_sublist_aux (sq : ℚ → ℚ) (eps : ℚ) :
    ∀ (n : ℕ) (pts : List Point), pts.length ≤ n →
      List.Sublist (rdp sq eps pts) pts := by
  intro n
  induction n with
  | zero =>
      intro pts hn
      have : pts = [] := List.length_eq_zero.mp (by omega)
      subst this
      rw [rdp_of_length_le sq eps (by simp)]
  | succ n IH =>
      intro pts hn
      rcases rdp_cases sq eps pts with ⟨hle, heq⟩ | ⟨hgt, h2c, heq⟩ | ⟨hgt, h2c, heq⟩
      · rw [heq]
      · rw [heq]
        have hmib : (maxDistIdx sq pts).2 ≤ pts.length - 2 := maxDistIdx_snd_le _ _ h2c.2
        set mi := (maxDistIdx sq pts).2 with hmi
        have hL : List.Sublist (rdp sq eps (pts.take (mi + 1))) (pts.take (mi + 1)) :=
          IH _ (by simp only [List.length_take]; omega)
        have hA : List.Sublist (rdp sq eps (pts.take (mi + 1))).dropLast (pts.take mi) := by
          have := sublist_dropLast hL
          rwa [dropLast_take (by omega)] at this
        have hRt : List.Sublist (rdp sq eps (pts.drop mi)) (pts.drop mi) :=
          IH _ (by simp only [List.length_drop]; omega)
        have happ := List.Sublist.append hA hRt
        rwa [List.take_append_drop] at happ
      · rw [heq]
        exact pair_sublist (by omega)

theorem rdp_sublist (sq : ℚ → ℚ) (eps : ℚ) (pts : List Point) :
    List.Sublist (rdp sq eps pts) pts :=
  rdp_sublist_aux sq eps pts.length pts le_rfl

/-! ### The chord-distance function at the chord endpoints -/

theorem pointToLineDistance_self_left (sq : ℚ → ℚ) (hsq : sq 0 = 0) (a b : Point) :
    pointToLineDistance sq a a b = 0 := by
  simp only [pointToLineDistance]
  by_cases h : (b.x - a.x) * (b.x - a.x) + (b.y - a.y) * (b.y - a.y) = 0
  · rw [if_pos h]
    simpa using hsq
  · rw [if_neg h]
    have harg : ((a.x - a.x) * (b.x - a.x) + (a.y - a.y) * (b.y - a.y))
        / ((b.x - a.x) * (b.x - a.x) + (b.y - a.y) * (b.y - a.y)) = 0 := by
      simp
    rw [harg]
    norm_num [hsq]

theorem pointToLineDistance_self_right (sq : ℚ → ℚ) (hsq : sq 0 = 0) (a b : Point) :
    pointToLineDistance sq b a b = 0 := by
  simp only [pointToLineDistance]
  by_cases h : (b.x - a.x) * (b.x - a.x) + (b.y - a.y) * (b.y - a.y) = 0
  · rw [if_pos h]
    have h1 : (b.x - a.x) * (b.x - a.x) = 0 :=
      le_antisymm (by nlinarith [mul_self_nonneg (b.y - a.y)]) (mul_self_nonneg _)
    have h2 : (b.y - a.y) * (b.y - a.y) = 0 :=
      le_antisymm (by nlinarith [mul_self_nonneg (b.x - a.x)]) (mul_self_nonneg _)
    have hx : b.x - a.x = 0 := mul_self_eq_zero.mp h1
    have hy : b.y - a.y = 0 := mul_self_eq_zero.mp h2
    rw [hx, hy]
    norm_num [hsq]
  · rw [if_neg h]
    have hdiv : ((b.x - a.x) * (b.x - a.x) + (b.y - a.y) * (b.y - a.y))
        / ((b.x - a.x) * (b.x - a.x) + (b.y - a.y) * (b.y - a.y)) = 1 := div_self h
    rw [hdiv]
    have h01 : max (0:ℚ) (min 1 1) = 1 := by norm_num
    rw [h01]
    convert hsq using 2
    ring

/-! ### Characterisation of the first scan -/

theorem take_dropLast {l : List Point} {k : ℕ} (h : k ≤ l.length - 1) :
    l.dropLast.take k = l.take k := by
  rw [List.dropLast_eq_take, List.take_take]
  congr 1
  omega

/-- Splitting form of the `(maxDist, maxIdx)` result: the interior-distance
list splits at position `maxIdx - 1` into strictly-smaller values, the max
itself, and not-larger values. -/
theorem maxDistIdx_split (sq : ℚ → ℚ) (pts : List Point)
    (h1 : 1 ≤ (maxDistIdx sq pts).2) :
    ∃ preD sufD,
      interiorDists sq pts = preD ++ (maxDistIdx sq pts).1 :: sufD
      ∧ (maxDistIdx sq pts).2 = 1 + preD.length
      ∧ (∀ u ∈ preD, u < (maxDistIdx sq pts).1)
      ∧ (∀ u ∈ sufD, u ≤ (maxDistIdx sq pts).1)
      ∧ 0 < (maxDistIdx sq pts).1 := by
  rcases scanAux_spec (interiorDists sq pts) 1 0 0 with h |
    ⟨pre, v, suf, hsplit, hval, hpre, hsuf, hmd⟩
  · rw [maxDistIdx] at h1
    rw [h] at h1
    omega
  · have hmv : maxDistIdx sq pts = (v, 1 + pre.length) := hval
    refine ⟨pre, suf, ?_, ?_, ?_, ?_, ?_⟩
    · rw [hmv]; exact hsplit
    · rw [hmv]
    · rw [hmv]; exact hpre
    · rw [hmv]; exact hsuf
    · rw [hmv]; exact hmd

/-- The three facts about the first scan used to re-run it on the simplified
output: the point at `maxIdx` realises `maxDist`, every point strictly before
`maxIdx` (including the chord's start) is strictly closer, and every point
from `maxIdx` on (including the chord's end) is at most as far. -/
theorem headI_cons_tail {l : List Point} (h : l ≠ []) : l.headI :: l.tail = l := by
  cases l with
  | nil => exact absurd rfl h
  | cons a as => rfl

theorem maxDistIdx_bounds (sq : ℚ → ℚ) (hsq : sq 0 = 0) (pts : List Point)
    (h3 : 3 ≤ pts.length) (h1 : 1 ≤ (maxDistIdx sq pts).2) :
    (pointToLineDistance sq (pts.getD (maxDistIdx sq pts).2 default)
        pts.headI pts.getLastI = (maxDistIdx sq pts).1)
    ∧ (∀ q ∈ pts.take (maxDistIdx sq pts).2,
        pointToLineDistance sq q pts.headI pts.getLastI < (maxDistIdx sq pts).1)
    ∧ (∀ q ∈ pts.drop (maxDistIdx sq pts).2,
        pointToLineDistance sq q pts.headI pts.getLastI ≤ (maxDistIdx sq pts).1) := by
  obtain ⟨preD, sufD, hsplit, hidx, hpre, hsuf, hpos⟩ := maxDistIdx_split sq pts h1
  have hmib : (maxDistIdx sq pts).2 ≤ pts.length - 2 := maxDistIdx_snd_le _ _ h1
  set md := (maxDistIdx sq pts).1 with hmd
  set mi := (maxDistIdx sq pts).2 with hmi
  have hinterior : interiorDists sq pts
      = ((pts.drop 1).dropLast).map
          (fun p => pointToLineDistance sq p pts.headI pts.getLastI) := rfl
  have hIlen : (interiorDists sq pts).length = pts.length - 2 := by
    rw [hinterior, List.length_map, List.length_dropLast, List.length_drop]
    omega
  have hplen : preD.length = mi - 1 := by omega
  constructor
  · -- value at maxIdx
    have hk : mi - 1 < ((pts.drop 1).dropLast).length := by
      rw [List.length_dropLast, List.length_drop]
      omega
    have hmi1 : 1 + (mi - 1) = mi := by omega
    have hcond : mi - 1 < (pts.drop 1).length - 1 := by
      rw [List.length_drop]
      omega
    have hget : ((pts.drop 1).dropLast).getD (mi - 1) default = pts.getD mi default := by
      rw [List.getD_eq_getElem?_getD, List.getD_eq_getElem?_getD]
      rw [List.getElem?_dropLast, List.getElem?_drop, if_pos hcond, hmi1]
    have hmapD : (interiorDists sq pts).getD (mi - 1) 0
        = pointToLineDistance sq (((pts.drop 1).dropLast).getD (mi - 1) default)
            pts.headI pts.getLastI := by
      rw [hinterior, List.getD_eq_getElem?_getD, List.getElem?_map,
        List.getD_eq_getElem?_getD, List.getElem?_eq_getElem hk]
      rfl
    have hsplitD : (interiorDists sq pts).getD (mi - 1) 0 = md := by
      rw [hsplit, ← hplen]
      rw [List.getD_eq_getElem?_getD, List.getElem?_append_right (le_refl _)]
      simp
    rw [hget] at hmapD
    rw [← hmapD, hsplitD]
  constructor
  · -- points strictly before maxIdx
    intro q hq
    have hne : pts ≠ [] := by
      intro hnil
      subst hnil
      simp at h3
    obtain ⟨k, hk⟩ : ∃ k, mi = k + 1 := ⟨mi - 1, by omega⟩
    have htake : pts.take mi = pts.headI :: pts.tail.take (mi - 1) := by
      conv_lhs => rw [← headI_cons_tail hne]
      rw [hk, List.take_succ_cons]
      simp
    rw [htake] at hq
    rcases List.mem_cons.mp hq with hqe | hq'
    · rw [hqe, pointToLineDistance_self_left sq hsq]
      exact hpos
    · have hq'' : q ∈ ((pts.drop 1).dropLast).take (mi - 1) := by
        rw [take_dropLast (by
          rw [List.length_drop]
          omega)]
        rwa [List.drop_one]
      have hmem : pointToLineDistance sq q pts.headI pts.getLastI ∈ preD := by
        have hmm := List.mem_map_of_mem
          (fun r => pointToLineDistance sq r pts.headI pts.getLastI) hq''
        rw [List.map_take, ← hinterior] at hmm
        rw [hsplit, ← hplen, List.take_left] at hmm
        exact hmm
      exact hpre _ hmem
  · -- points from maxIdx on
    intro q hq
    have hne : pts.drop mi ≠ [] := by
      intro hnil
      have := congrArg List.length hnil
      simp only [List.length_drop, List.length_nil] at this
      omega
    have hdec : pts.drop mi = ((pts.drop 1).dropLast).drop (mi - 1) ++ [pts.getLastI] := by
      have h1' : ((pts.drop 1).dropLast).drop (mi - 1) = (pts.drop mi).dropLast := by
        rw [dropLast_drop, List.drop_drop]
        congr 2
        omega
      rw [h1', ← getLastI_drop (show mi < pts.length by omega)]
      exact (dropLast_append_getLastI hne).symm
    rw [hdec] at hq
    rcases List.mem_append.mp hq with hq' | hq'
    · have hmem : pointToLineDistance sq q pts.headI pts.getLastI ∈ md :: sufD := by
        have hmm := List.mem_map_of_mem
          (fun r => pointToLineDistance sq r pts.headI pts.getLastI) hq'
        rw [List.map_drop, ← hinterior] at hmm
        rw [hsplit, ← hplen, List.drop_left] at hmm
        exact hmm
      rcases List.mem_cons.mp hmem with heq' | hmem'
      · exact le_of_eq heq'
      · exact hsuf _ hmem'
    · rcases List.mem_singleton.mp hq' with rfl
      rw [pointToLineDistance_self_right sq hsq]
      exact le_of_lt hpos

theorem dropLast_cons_of_ne_nil' {a : Point} {t : List Point} (h : t ≠ []) :
    (a :: t).dropLast = a :: t.dropLast := by
  cases t with
  | nil => exact absurd rfl h
  | cons x xs => rfl

/-- Key idempotence of the RDP recursion: running `rdp` on its own output is
the identity (for a nonnegative tolerance and a square-root model with
`sq 0 = 0`). -/
theorem rdp_idem_aux (sq : ℚ → ℚ) (eps : ℚ) (hsq : sq 0 = 0) (heps : 0 ≤ eps) :
    ∀ (n : ℕ) (pts : List Point), pts.length ≤ n →
      rdp sq eps (rdp sq eps pts) = rdp sq eps pts := by
  intro n
  induction n with
  | zero =>
      intro pts hn
      have hnil : pts = [] := List.length_eq_zero.mp (by omega)
      subst hnil
      have h0 : rdp sq eps ([] : List Point) = [] :=
        rdp_of_length_le sq eps (by simp)
      rw [h0, h0]
  | succ n IH =>
      intro pts hn
      rcases rdp_cases sq eps pts with ⟨hle, heq⟩ | ⟨hgt, h2c, heq⟩ | ⟨hgt, h2c, heq⟩
      · rw [heq]
        exact heq
      · -- recursive case
        have hmib : (maxDistIdx sq pts).2 ≤ pts.length - 2 := maxDistIdx_snd_le _ _ h2c.2
        obtain ⟨hAt, hBefore, hAfter⟩ :=
          maxDistIdx_bounds sq hsq pts (by omega) h2c.2
        obtain ⟨md, mi, hpair⟩ : ∃ md mi, maxDistIdx sq pts = (md, mi) :=
          ⟨(maxDistIdx sq pts).1, (maxDistIdx sq pts).2, rfl⟩
        have hfst : (maxDistIdx sq pts).1 = md := by rw [hpair]
        have hsnd : (maxDistIdx sq pts).2 = mi := by rw [hpair]
        rw [hfst, hsnd] at h2c
        rw [hsnd] at hmib heq
        rw [hfst, hsnd] at hAt hBefore hAfter
        have hmd0 : (0 : ℚ) < md := lt_of_le_of_lt heps h2c.1
        set TK := pts.take (mi + 1) with hTK
        set DR := pts.drop mi with hDR
        have hTKlen : TK.length = mi + 1 := by
          rw [hTK, List.length_take]
          omega
        have hDRlen : DR.length = pts.length - mi := by
          rw [hDR, List.length_drop]
        set L := rdp sq eps TK with hL
        set Rt := rdp sq eps DR with hRt
        have hLlen : 2 ≤ L.length := by
          rw [hL]
          exact rdp_length_ge sq eps (by omega)
        have hRtlen : 2 ≤ Rt.length := by
          rw [hRt]
          exact rdp_length_ge sq eps (by omega)
        set A := L.dropLast with hA
        have hAlen : A.length = L.length - 1 := by
          rw [hA, List.length_dropLast]
        have hA1 : 1 ≤ A.length := by
          rw [hAlen]
          omega
        have hAne : A ≠ [] := by
          intro h0
          rw [h0] at hA1
          simp at hA1
        have hRtne : Rt ≠ [] := by
          intro h0
          rw [h0] at hRtlen
          simp at hRtlen
        have hptsne : pts ≠ [] := by
          intro h0
          subst h0
          simp at hgt
        have hLhead : L.headI = pts.headI := by
          rw [hL, rdp_headI, hTK, take_headI (by omega) hptsne]
        have hLlast : L.getLastI = pts.getD mi default := by
          rw [hL, rdp_getLastI, hTK, take_getLastI (by omega)]
        have hRthead : Rt.headI = pts.getD mi default := by
          rw [hRt, rdp_headI, hDR, drop_headI]
        have hRtlast : Rt.getLastI = pts.getLastI := by
          rw [hRt, rdp_getLastI, hDR, getLastI_drop (by omega)]
        have hLne : L ≠ [] := by
          intro h0
          rw [h0] at hLlen
          simp at hLlen
        have hAeq : A ++ [pts.getD mi default] = L := by
          rw [hA, ← hLlast]
          exact dropLast_append_getLastI hLne
        have hLsub : List.Sublist L TK := by
          rw [hL]
          exact rdp_sublist sq eps TK
        have hAsub : List.Sublist A (pts.take mi) := by
          have h' := sublist_dropLast hLsub
          rw [hTK, dropLast_take (by omega)] at h'
          rw [hA]
          exact h'
        have hRtsub : List.Sublist Rt DR := by
          rw [hRt]
          exact rdp_sublist sq eps DR
        set R := A ++ Rt with hR
        have hRlen : 3 ≤ R.length := by
          rw [hR, List.length_append]
          omega
        have hRhead : R.headI = pts.headI := by
          rw [hR, headI_append_left _ hAne, hA, headI_dropLast hLlen, hLhead]
        have hRlast : R.getLastI = pts.getLastI := by
          rw [hR, getLastI_append_right _ hRtne, hRtlast]
        obtain ⟨r0, rt, hRteq⟩ := List.exists_cons_of_ne_nil hRtne
        have hrtne : rt ≠ [] := by
          intro h0
          rw [hRteq, h0] at hRtlen
          simp only [List.length_cons, List.length_nil] at hRtlen
          omega
        have hr0 : r0 = pts.getD mi default := by
          rw [← hRthead, hRteq]
          rfl
        have hinterior_R : (R.drop 1).dropLast
            = A.drop 1 ++ (pts.getD mi default :: rt.dropLast) := by
          rw [hR, List.drop_append_of_le_length (by omega)]
          rw [List.dropLast_append_of_ne_nil _ hRtne]
          congr 1
          rw [hRteq, dropLast_cons_of_ne_nil' hrtne, hr0]
        have hIR : interiorDists sq R
            = (A.drop 1).map (fun p => pointToLineDistance sq p pts.headI pts.getLastI)
              ++ (md
                  :: (rt.dropLast).map
                      (fun p => pointToLineDistance sq p pts.headI pts.getLastI)) := by
          have hdefn : interiorDists sq R
              = ((R.drop 1).dropLast).map
                  (fun p => pointToLineDistance sq p R.headI R.getLastI) := rfl
          rw [hdefn, hRhead, hRlast, hinterior_R, List.map_append, List.map_cons, hAt]
        have hscanR : maxDistIdx sq R = (md, A.length) := by
          rw [maxDistIdx, hIR]
          rw [scanAux_append_cons _ _ _ _ _ _
            (by
              intro u hu
              rcases List.mem_map.mp hu with ⟨q, hqmem, rfl⟩
              exact hBefore q (hAsub.subset (List.mem_of_mem_drop hqmem)))
            hmd0
            (by
              intro u hu
              rcases List.mem_map.mp hu with ⟨q, hqmem, rfl⟩
              refine hAfter q (hRtsub.subset ?_)
              rw [hRteq]
              exact List.mem_cons_of_mem _ ((List.dropLast_sublist rt).subset hqmem))]
          have hlen' : 1 + ((A.drop 1).map
              (fun p => pointToLineDistance sq p pts.headI pts.getLastI)).length
              = A.length := by
            rw [List.length_map, List.length_drop]
            omega
          rw [← hlen']
        have hscan1 : (maxDistIdx sq R).1 = md := by rw [hscanR]
        have hscan2 : (maxDistIdx sq R).2 = A.length := by rw [hscanR]
        have hR2 : ¬ R.length ≤ 2 := by omega
        have hcondR : eps < (maxDistIdx sq R).1 ∧ 1 ≤ (maxDistIdx sq R).2 := by
          rw [hscan1, hscan2]
          exact ⟨h2c.1, hA1⟩
        have htake' : R.take (A.length + 1) = L := by
          rw [hR, List.take_append, take_one_eq_headI hRtne, hRthead]
          exact hAeq
        have hdrop' : R.drop A.length = Rt := by
          rw [hR]
          exact List.drop_left A Rt
        have hTKle : TK.length ≤ n := by omega
        have hDRle : DR.length ≤ n := by omega
        have hLidem : rdp sq eps L = L := by
          rw [hL]
          exact IH TK hTKle
        have hRtidem : rdp sq eps Rt = Rt := by
          rw [hRt]
          exact IH DR hDRle
        rw [heq]
        conv_lhs => rw [rdp]
        rw [dif_neg hR2, dif_pos hcondR, hscan2, htake', hdrop',
          hLidem, hRtidem, ← hA, ← hR]
      · -- chord-collapse case
        rw [heq, rdp_of_length_le sq eps (by simp)]

/-- Idempotence of `rdp` on arbitrary input. -/
theorem rdp_idem (sq : ℚ → ℚ) (eps : ℚ) (hsq : sq 0 = 0) (heps : 0 ≤ eps)
    (pts : List Point) : rdp sq eps (rdp sq eps pts) = rdp sq eps pts :=
  rdp_idem_aux sq eps hsq heps pts.length pts le_rfl

/-- `simplifyContour` from `src/lib/contour.ts` (lines 495–531): close the
polygon by appending the first point, run the RDP recursion, pop the duplicate
closing point when first and last coincide coordinate-wise, and fall back to
the original polygon when fewer than 3 vertices survive.  Polygons of at most
3 points are returned unchanged. -/
def simplifyContour (sq : ℚ → ℚ) (points : List Point) (tolerance : ℚ) : List Point :=
  if points.length ≤ 3 then points
  else
    let closed := points ++ [points.headI]
    let simplified := rdp sq tolerance closed
    let simplified2 :=
      if 1 < simplified.length
          ∧ simplified.headI.x = simplified.getLastI.x
          ∧ simplified.headI.y = simplified.getLastI.y then
        simplified.dropLast
      else simplified
    if 3 ≤ simplified2.length then simplified2 else points

theorem simplifyContour_of_le (sq : ℚ → ℚ) (tol : ℚ) {P : List Point}
    (h : P.length ≤ 3) : simplifyContour sq P tol = P := by
  simp only [simplifyContour]
  rw [if_pos h]

/-- For a polygon with more than 3 vertices the result is the popped RDP
output of the closed polygon, with fallback to the input: the RDP output of
the closed ring always starts and ends at `P.headI`, so the pop branch always
fires. -/
theorem simplifyContour_of_gt (sq : ℚ → ℚ) (tol : ℚ) (P : List Point)
    (h : 3 < P.length) :
    simplifyContour sq P tol
      = if 3 ≤ (rdp sq tol (P ++ [P.headI])).dropLast.length
        then (rdp sq tol (P ++ [P.headI])).dropLast else P := by
  have hPne : P ≠ [] := by
    intro h0
    subst h0
    simp at h
  have hclen : 2 ≤ (P ++ [P.headI]).length := by
    simp only [List.length_append, List.length_cons, List.length_nil]
    omega
  have hS2 : 2 ≤ (rdp sq tol (P ++ [P.headI])).length := rdp_length_ge sq tol hclen
  have hhead : (rdp sq tol (P ++ [P.headI])).headI = P.headI := by
    rw [rdp_headI, headI_append_left _ hPne]
  have hlast : (rdp sq tol (P ++ [P.headI])).getLastI = P.headI := by
    rw [rdp_getLastI, getLastI_append_right _ (by simp)]
    rfl
  have hcond : 1 < (rdp sq tol (P ++ [P.headI])).length
      ∧ (rdp sq tol (P ++ [P.headI])).headI.x
          = (rdp sq tol (P ++ [P.headI])).getLastI.x
      ∧ (rdp sq tol (P ++ [P.headI])).headI.y
          = (rdp sq tol (P ++ [P.headI])).getLastI.y := by
    refine ⟨by omega, ?_, ?_⟩ <;> rw [hhead, hlast]
  simp only [simplifyContour]
  rw [if_neg (by omega), if_pos hcond]

/-! ## Contour offsetting (`offsetContour` in `src/lib/contour.ts`) -/

/-- JavaScript `Math.round`: round half towards positive infinity. -/
def jsRound (q : ℚ) : ℤ := ⌊q + 1/2⌋

/-- The body of the per-vertex loop of `offsetContour` (`src/lib/contour.ts`
lines 411–434), parameterised by the square-root model `sq`.  `n` is
`points.length` and `i` the loop index. -/
def offsetVertex (sq : ℚ → ℚ) (points : List Point) (offsetPx : ℚ) (i : ℕ) : Point :=
  let n := points.length
  let prev := points.getD (if i = 0 then n - 1 else i - 1) default
  let curr := points.getD i default
  let next := points.getD (if i = n - 1 then 0 else i + 1) default
  let dx1 := curr.x - prev.x
  let dy1 := curr.y - prev.y
  let len1 := let l := sq (dx1 * dx1 + dy1 * dy1); if l = 0 then 1 else l
  let nx1 := -dy1 / len1
  let ny1 := dx1 / len1
  let dx2 := next.x - curr.x
  let dy2 := next.y - curr.y
  let len2 := let l := sq (dx2 * dx2 + dy2 * dy2); if l = 0 then 1 else l
  let nx2 := -dy2 / len2
  let ny2 := dx2 / len2
  let nx0 := (nx1 + nx2) / 2
  let ny0 := (ny1 + ny2) / 2
  let normalLen := let m := sq (nx0 * nx0 + ny0 * ny0); if m = 0 then 1 else m
  let nx := nx0 / normalLen
  let ny := ny0 / normalLen
  ⟨((jsRound (curr.x + nx * offsetPx) : ℤ) : ℚ),
    ((jsRound (curr.y + ny * offsetPx) : ℤ) : ℚ)⟩

/-- `offsetContour` from `src/lib/contour.ts`: displace every vertex along the
average of its two edge normals and round each coordinate; inputs with fewer
than 3 points or a zero offset are returned unchanged. -/
def offsetContour (sq : ℚ → ℚ) (points : List Point) (offsetPx : ℚ) : List Point :=
  if points.length < 3 ∨ offsetPx = 0 then points
  else (List.range points.length).map (offsetVertex sq points offsetPx)

/-! ## STL export (`src/lib/stl-export.ts`)

The mesh builder and binary serializer of `generateSTL`.  Two parts of the
pipeline cannot be embedded directly from `src/`:

* the `earcut` triangulator is a third-party npm dependency whose source is
  not part of the repository — it is modelled from spec §4.7 as an
  ear-clipping triangulation with standard hole bridging (see `earcutModel`);
* `DataView.setFloat32` writes the four little-endian bytes of the IEEE-754
  single-precision bit pattern of its argument; that bit-pattern encoding is
  abstracted as a parameter `enc : ℚ → List ℕ` (four bytes per value, as the
  theorems hypothesise).

The serializer's imperative writes tile the allocated buffer exactly: bytes
0–79 the header, 80–83 the little-endian `setUint32` triangle count, and the
50-byte record of triangle `i` at offset `84 + 50·i`, so the buffer is
faithfully the concatenation built below. -/

structure Vec3 where
  x : ℚ
  y : ℚ
  z : ℚ
deriving DecidableEq, Repr, Inhabited

/-- `Triangle` from `src/lib/stl-export.ts`. -/
structure Triangle where
  v1 : Vec3
  v2 : Vec3
  v3 : Vec3
  normal : Vec3
deriving DecidableEq, Repr, Inhabited

/-- The `JigConfig` fields consumed by `generateSTL`: padding, material
thickness, and nullable pocket depth (null = through-cut). -/
structure JigConfig where
  paddingMm : ℚ
  thicknessMm : ℚ
  pocketDepthMm : Option ℚ
deriving DecidableEq, Repr

/-- `normalize` from `src/lib/stl-export.ts` (`sq` models `Math.sqrt` applied
to the rational radicand; zero length falls back to `(0,0,1)`). -/
def normalizeV (sq : ℚ → ℚ) (v : Vec3) : Vec3 :=
  let len := sq (v.x * v.x + v.y * v.y + v.z * v.z)
  if len = 0 then ⟨0, 0, 1⟩ else ⟨v.x / len, v.y / len, v.z / len⟩

/-- 2-D cross product of `(a - o) × (b - o)`. -/
def cross2 (o a b : Point) : ℚ :=
  (a.x - o.x) * (b.y - o.y) - (a.y - o.y) * (b.x - o.x)

/-- Modelled from the spec (§4.7, ear clipping): signed double area (shoelace
sum) of a ring of vertex indices into `verts`. -/
def signedArea2 (verts : List Point) (ring : List ℕ) : ℚ :=
  (List.range ring.length).foldl (fun acc i =>
    let p := verts.getD (ring.getD i 0) default
    let q := verts.getD (ring.getD ((i + 1) % ring.length) 0) default
    acc + (p.x * q.y - q.x * p.y)) 0

/-- Modelled from the spec: force the outer ring counter-clockwise and holes
clockwise, as the triangulator normalises winding. -/
def orientRing (verts : List Point) (ring : List ℕ) (ccw : Bool) : List ℕ :=
  let a := signedArea2 verts ring
  if ccw then (if a < 0 then ring.reverse else ring)
  else (if 0 < a then ring.reverse else ring)

/-- `p` strictly inside the (counter-clockwise) triangle `a b c`. -/
def strictlyInTri (a b c p : Point) : Bool :=
  decide (0 < cross2 a b p) && decide (0 < cross2 b c p) && decide (0 < cross2 c a p)

/-- Modelled from the spec: the ear test at ring position `j` — the corner is
convex and no other ring vertex lies strictly inside it. -/
def isEar (verts : List Point) (ring : List ℕ) (j : ℕ) : Bool :=
  let n := ring.length
  let a := verts.getD (ring.getD ((j + n - 1) % n) 0) default
  let b := verts.getD (ring.getD (j % n) 0) default
  let c := verts.getD (ring.getD ((j + 1) % n) 0) default
  decide (0 < cross2 a b c) &&
    (List.range n).all fun k =>
      if k = (j + n - 1) % n ∨ k = j % n ∨ k = (j + 1) % n then true
      else ! strictlyInTri a b c (verts.getD (ring.getD k 0) default)

/-- Modelled from the spec: ear-clipping loop (fuel-bounded).  Clips the first
ear found, emitting its index triple; a ring reduced to 3 vertices is emitted
directly; if no ear is found (degenerate input) a vertex is dropped so the
loop always terminates. -/
def earClipAux (verts : List Point) : ℕ → List ℕ → List ℕ
  | 0, _ => []
  | fuel + 1, ring =>
      if ring.length < 3 then []
      else if ring.length = 3 then [ring.getD 0 0, ring.getD 1 0, ring.getD 2 0]
      else
        match (List.range ring.length).find? (fun j => isEar verts ring j) with
        | some j =>
            let n := ring.length
            ring.getD ((j + n - 1) % n) 0 :: ring.getD j 0 :: ring.getD ((j + 1) % n) 0
              :: earClipAux verts fuel (ring.eraseIdx j)
        | none => earClipAux verts fuel (ring.eraseIdx 0)

/-- `[s, s+1, …, e-1]`. -/
def rangeFrom (s e : ℕ) : List ℕ := (List.range (e - s)).map (· + s)

/-- Position (within `hole`) of the leftmost (then lowest) hole vertex. -/
def leftmostPos (verts : List Point) (hole : List ℕ) : ℕ :=
  (List.range hole.length).foldl (fun best k =>
    let pb := verts.getD (hole.getD best 0) default
    let pk := verts.getD (hole.getD k 0) default
    if pk.x < pb.x ∨ (pk.x = pb.x ∧ pk.y < pb.y) then k else best) 0

/-- Position (within `ring`) of the ring vertex nearest to `target`. -/
def nearestPos (verts : List Point) (ring : List ℕ) (target : Point) : ℕ :=
  (List.range ring.length).foldl (fun best k =>
    let pb := verts.getD (ring.getD best 0) default
    let pk := verts.getD (ring.getD k 0) default
    if (pk.x - target.x) ^ 2 + (pk.y - target.y) ^ 2
        < (pb.x - target.x) ^ 2 + (pb.y - target.y) ^ 2 then k else best) 0

/-- Modelled from the spec ("hole vertices appended after outer vertices,
hole start index passed to the triangulator"): splice a hole ring into the
outer ring through a bridge edge, duplicating the two bridge vertices. -/
def bridgeHole (verts : List Point) (ring hole : List ℕ) : List ℕ :=
  if hole = [] then ring
  else if ring = [] then hole
  else
    let jh := leftmostPos verts hole
    let rotated := hole.rotate jh
    let target := verts.getD (rotated.getD 0 0) default
    let jo := nearestPos verts ring target
    ring.take (jo + 1) ++ rotated ++ [rotated.getD 0 0, ring.getD jo 0]
      ++ ring.drop (jo + 1)

/-- Modelled from the spec: the `earcut(flatCoords, holeIndices, 2)` call —
vertex list plus hole start indices, returning a flat list of index triples.
Rings are the index intervals between consecutive hole starts, exactly as the
dependency interprets its `holeIndices` argument. -/
def earcutModel (verts : List Point) (holeIdx : List ℕ) : List ℕ :=
  let N := verts.length
  match holeIdx with
  | [] =>
      let ring := orientRing verts (List.range N) true
      earClipAux verts (2 * ring.length + 2) ring
  | h :: rest =>
      let outer := orientRing verts (rangeFrom 0 (min h N)) true
      let ends := rest ++ [N]
      let holes := ((h :: rest).zip ends).map
        (fun se => orientRing verts (rangeFrom se.1 (min se.2 N)) false)
      let ring := holes.foldl (bridgeHole verts) outer
      earClipAux verts (2 * ring.length + 2) ring

/-- Split a flat index list into consecutive triples (the `i += 3` read loop
of the serializer; a non-multiple-of-3 tail cannot occur). -/
def triplesOf : List ℕ → List (ℕ × ℕ × ℕ)
  | a :: b :: c :: rest => (a, b, c) :: triplesOf rest
  | _ => []

/-- The `outerRect` of `generateSTL`: the jig boundary rectangle, centred. -/
def jigRect (jigSize : SizeWH) (config : JigConfig) : List Point :=
  let jigWidth := jigSize.width + config.paddingMm * 2
  let jigHeight := jigSize.height + config.paddingMm * 2
  [⟨-(jigWidth / 2), -(jigHeight / 2)⟩, ⟨jigWidth / 2, -(jigHeight / 2)⟩,
    ⟨jigWidth / 2, jigHeight / 2⟩, ⟨-(jigWidth / 2), jigHeight / 2⟩]

/-- The `contourMm` of `generateSTL`: contour points recentred on their
centroid and scaled from pixels to millimetres. -/
def contourMmOf (contour : Contour) (pixelsPerMm : ℚ) : List Point :=
  let centerX := (contour.points.map Point.x).sum / (contour.points.length : ℚ)
  let centerY := (contour.points.map Point.y).sum / (contour.points.length : ℚ)
  contour.points.map fun p =>
    ⟨(p.x - centerX) / pixelsPerMm, (p.y - centerY) / pixelsPerMm⟩

/-- Step 1 of `generateSTL`: bottom face — the full rectangle (no hole),
triangulated, at `z = 0` with downward normal. -/
def bottomFaceTris (outerRect : List Point) : List Triangle :=
  (triplesOf (earcutModel outerRect [])).map fun t =>
    { v1 := ⟨(outerRect.getD t.1 default).x, (outerRect.getD t.1 default).y, 0⟩
      v2 := ⟨(outerRect.getD t.2.1 default).x, (outerRect.getD t.2.1 default).y, 0⟩
      v3 := ⟨(outerRect.getD t.2.2 default).x, (outerRect.getD t.2.2 default).y, 0⟩
      normal := ⟨0, 0, -1⟩ }

/-- Index lookup of the top face: rectangle corners below
`outerRect.length = 4`, contour points above. -/
def topLookup (outerRect contourMm : List Point) (i : ℕ) : Point :=
  if i < outerRect.length then outerRect.getD i default
  else contourMm.getD (i - outerRect.length) default

/-- Step 2 of `generateSTL`: top face — rectangle with the contour passed as
a hole.  NOTE (faithful to the source): the hole-start index passed to the
triangulator is `contourFlat.length / 2 = contourMm.length`, not the
rectangle's vertex count 4.  The emitted winding is `(p0, p2, p1)`. -/
def topFaceTris (outerRect contourMm : List Point) (topZ : ℚ) : List Triangle :=
  let combined := outerRect ++ contourMm
  let holeIndices := [contourMm.length]
  (triplesOf (earcutModel combined holeIndices)).map fun t =>
    let p0 := topLookup outerRect contourMm t.1
    let p1 := topLookup outerRect contourMm t.2.1
    let p2 := topLookup outerRect contourMm t.2.2
    { v1 := ⟨p0.x, p0.y, topZ⟩, v2 := ⟨p2.x, p2.y, topZ⟩, v3 := ⟨p1.x, p1.y, topZ⟩,
      normal := ⟨0, 0, 1⟩ }

/-- `addQuad` from `generateSTL`: a quad as two triangles sharing `v1`–`v3`. -/
def addQuad (v1 v2 v3 v4 n : Vec3) : List Triangle :=
  [{ v1 := v1, v2 := v2, v3 := v3, normal := n },
    { v1 := v1, v2 := v3, v3 := v4, normal := n }]

/-- Step 3 of `generateSTL`: outer side walls, one quad per rectangle edge. -/
def outerWallTris (sq : ℚ → ℚ) (outerRect : List Point) (topZ : ℚ) : List Triangle :=
  (List.range outerRect.length).flatMap fun i =>
    let j := (i + 1) % outerRect.length
    let p1 := outerRect.getD i default
    let p2 := outerRect.getD j default
    let n := normalizeV sq ⟨p2.y - p1.y, -(p2.x - p1.x), 0⟩
    addQuad ⟨p1.x, p1.y, 0⟩ ⟨p2.x, p2.y, 0⟩ ⟨p2.x, p2.y, topZ⟩ ⟨p1.x, p1.y, topZ⟩ n

/-- Step 4 of `generateSTL`: inner (cutout) side walls, one quad per contour
edge, from `z = pocketZ` up to `z = topZ`, with inward-rotated normal. -/
def innerWallTris (sq : ℚ → ℚ) (contourMm : List Point) (pocketZ topZ : ℚ) :
    List Triangle :=
  (List.range contourMm.length).flatMap fun i =>
    let j := (i + 1) % contourMm.length
    let p1 := contourMm.getD i default
    let p2 := contourMm.getD j default
    let n := normalizeV sq ⟨-(p2.y - p1.y), p2.x - p1.x, 0⟩
    addQuad ⟨p1.x, p1.y, pocketZ⟩ ⟨p1.x, p1.y, topZ⟩ ⟨p2.x, p2.y, topZ⟩
      ⟨p2.x, p2.y, pocketZ⟩ n

/-- The `triangles` array built by `generateSTL`, in push order: bottom face,
top face, outer walls, inner walls. -/
def generateTriangles (sq : ℚ → ℚ) (contour : Contour) (jigSize : SizeWH)
    (config : JigConfig) (pixelsPerMm : ℚ) : List Triangle :=
  let thickness := config.thicknessMm
  let pocketDepth := config.pocketDepthMm.getD thickness
  let contourMm := contourMmOf contour pixelsPerMm
  let outerRect := jigRect jigSize config
  let topZ := thickness
  let pocketZ := thickness - pocketDepth
  bottomFaceTris outerRect ++ topFaceTris outerRect contourMm topZ
    ++ outerWallTris sq outerRect topZ ++ innerWallTris sq contourMm pocketZ topZ

/-- Little-endian bytes of `setUint16` (value taken mod 2^16). -/
def u16le (k : ℕ) : List ℕ := [k % 256, k / 256 % 256]

/-- Little-endian bytes of `setUint32` (value taken mod 2^32, as JavaScript's
ToUint32 does). -/
def u32le (k : ℕ) : List ℕ :=
  [k % 256, k / 256 % 256, k / 65536 % 256, k / 16777216 % 256]

/-- The unsigned value of a 4-byte little-endian field. -/
def u32leVal : List ℕ → ℕ
  | [a, b, c, d] => a + 256 * b + 65536 * c + 16777216 * d
  | _ => 0

/-- The 80-byte header: the ASCII codes of `'JigSnap Generated STL'` padded
with zero bytes. -/
def headerBytes : List ℕ :=
  [74, 105, 103, 83, 110, 97, 112, 32, 71, 101, 110, 101, 114, 97, 116, 101,
    100, 32, 83, 84, 76] ++ List.replicate 59 0

/-- One 50-byte triangle record: 3 normal floats, 9 vertex floats (each
serialized by `enc` into its 4 little-endian bytes), then the 16-bit
attribute field written as 0. -/
def triangleRecord (enc : ℚ → List ℕ) (t : Triangle) : List ℕ :=
  enc t.normal.x ++ enc t.normal.y ++ enc t.normal.z
    ++ enc t.v1.x ++ enc t.v1.y ++ enc t.v1.z
    ++ enc t.v2.x ++ enc t.v2.y ++ enc t.v2.z
    ++ enc t.v3.x ++ enc t.v3.y ++ enc t.v3.z
    ++ u16le 0

/-- The binary STL buffer (lines 171–217 of `src/lib/stl-export.ts`):
header, little-endian triangle count, then the triangle records. -/
def serializeSTL (enc : ℚ → List ℕ) (tris : List Triangle) : List ℕ :=
  headerBytes ++ u32le tris.length ++ (tris.map (triangleRecord enc)).flatten

/-- `generateSTL` from `src/lib/stl-export.ts`: build the mesh, serialize it.
The function has no error exit: its only `return` hands back the buffer. -/
def generateSTL (sq : ℚ → ℚ) (enc : ℚ → List ℕ) (contour : Contour)
    (jigSize : SizeWH) (config : JigConfig) (pixelsPerMm : ℚ) : List ℕ :=
  serializeSTL enc (generateTriangles sq contour jigSize config pixelsPerMm)

/-- Number of triangles a mesh holds an unordered edge `{a, b}` in. -/
def edgeCount (tris : List Triangle) (a b : Vec3) : ℕ :=
  tris.countP fun t =>
    decide ((t.v1 = a ∧ t.v2 = b) ∨ (t.v2 = a ∧ t.v1 = b)
      ∨ (t.v2 = a ∧ t.v3 = b) ∨ (t.v3 = a ∧ t.v2 = b)
      ∨ (t.v3 = a ∧ t.v1 = b) ∨ (t.v1 = a ∧ t.v3 = b))

/-! ### The triangulation of the jig rectangle -/

theorem isEar_rect (w h : ℚ) (hw : 0 < w) (hh : 0 < h) :
    isEar [⟨-(w / 2), -(h / 2)⟩, ⟨w / 2, -(h / 2)⟩, ⟨w / 2, h / 2⟩, ⟨-(w / 2), h / 2⟩]
      [0, 1, 2, 3] 0 = true := by
  have hc : 0 < w * h := mul_pos hw hh
  have hr4 : List.range 4 = [0, 1, 2, 3] := rfl
  simp only [isEar, strictlyInTri, cross2, hr4, List.all_cons, List.all_nil,
    List.length_cons, List.length_nil, List.getD_cons_zero, List.getD_cons_succ]
  norm_num [List.getD]
  refine ⟨by nlinarith, ?_⟩
  right
  nlinarith

/-- The modelled triangulator splits any positively-oriented origin-centred
rectangle into exactly the two triangles `(3,0,1)` and `(1,2,3)`. -/
theorem earcut_rect (w h : ℚ) (hw : 0 < w) (hh : 0 < h) :
    earcutModel [⟨-(w / 2), -(h / 2)⟩, ⟨w / 2, -(h / 2)⟩, ⟨w / 2, h / 2⟩,
      ⟨-(w / 2), h / 2⟩] [] = [3, 0, 1, 1, 2, 3] := by
  have hc : 0 < w * h := mul_pos hw hh
  have harea : signedArea2 [⟨-(w / 2), -(h / 2)⟩, ⟨w / 2, -(h / 2)⟩, ⟨w / 2, h / 2⟩,
      ⟨-(w / 2), h / 2⟩] (List.range 4) = 2 * (w * h) := by
    show List.foldl _ _ (List.range 4) = _
    norm_num [List.range_succ, List.foldl, List.getD]
    ring
  have hring : orientRing [⟨-(w / 2), -(h / 2)⟩, ⟨w / 2, -(h / 2)⟩, ⟨w / 2, h / 2⟩,
      ⟨-(w / 2), h / 2⟩] (List.range 4) true = [0, 1, 2, 3] := by
    simp only [orientRing, harea]
    rw [if_pos trivial, if_neg (by nlinarith)]
    rfl
  have hfind : List.find? (fun j => isEar
      [⟨-(w / 2), -(h / 2)⟩, ⟨w / 2, -(h / 2)⟩, ⟨w / 2, h / 2⟩, ⟨-(w / 2), h / 2⟩]
      [0, 1, 2, 3] j) (List.range ([0, 1, 2, 3] : List ℕ).length) = some 0 := by
    rw [show List.range ([0, 1, 2, 3] : List ℕ).length = 0 :: [1, 2, 3] from rfl,
      List.find?_cons]
    rw [isEar_rect w h hw hh]
  have hclip : ∀ fuel, earClipAux [⟨-(w / 2), -(h / 2)⟩, ⟨w / 2, -(h / 2)⟩,
      ⟨w / 2, h / 2⟩, ⟨-(w / 2), h / 2⟩] (fuel + 2) [0, 1, 2, 3]
      = [3, 0, 1, 1, 2, 3] := by
    intro fuel
    rw [show fuel + 2 = (fuel + 1) + 1 from rfl, earClipAux]
    rw [if_neg (by decide), if_neg (by decide), hfind]
    rfl
  show earClipAux _ (2 * (orientRing _ (List.range 4) true).length + 2)
      (orientRing _ (List.range 4) true) = _
  rw [hring]
  exact hclip 8

/-- The bottom face of the jig is triangulated into exactly 2 triangles. -/
theorem bottomFaceTris_length (jigSize : SizeWH) (config : JigConfig)
    (hw : 0 < jigSize.width + config.paddingMm * 2)
    (hh : 0 < jigSize.height + config.paddingMm * 2) :
    (bottomFaceTris (jigRect jigSize config)).length = 2 := by
  have hrect : jigRect jigSize config
      = [⟨-((jigSize.width + config.paddingMm * 2) / 2),
            -((jigSize.height + config.paddingMm * 2) / 2)⟩,
          ⟨(jigSize.width + config.paddingMm * 2) / 2,
            -((jigSize.height + config.paddingMm * 2) / 2)⟩,
          ⟨(jigSize.width + config.paddingMm * 2) / 2,
            (jigSize.height + config.paddingMm * 2) / 2⟩,
          ⟨-((jigSize.width + config.paddingMm * 2) / 2),
            (jigSize.height + config.paddingMm * 2) / 2⟩] := rfl
  show (List.map _ (triplesOf (earcutModel (jigRect jigSize config) []))).length = 2
  rw [hrect, earcut_rect _ _ hw hh]
  rfl

/-! ### Wall counts -/

theorem bind_addQuad_length (n : ℕ) (f : ℕ → List Triangle)
    (h : ∀ i, (f i).length = 2) : ((List.range n).flatMap f).length = 2 * n := by
  induction n with
  | zero => rfl
  | succ m IH =>
      rw [List.range_succ, List.flatMap_append, List.length_append, IH]
      simp [h m]
      omega

theorem outerWallTris_length (sq : ℚ → ℚ) (outerRect : List Point) (topZ : ℚ) :
    (outerWallTris sq outerRect topZ).length = 2 * outerRect.length :=
  bind_addQuad_length _ _ fun _ => rfl

theorem innerWallTris_length (sq : ℚ → ℚ) (contourMm : List Point)
    (pocketZ topZ : ℚ) :
    (innerWallTris sq contourMm pocketZ topZ).length = 2 * contourMm.length :=
  bind_addQuad_length _ _ fun _ => rfl

theorem contourMmOf_length (contour : Contour) (ppm : ℚ) :
    (contourMmOf contour ppm).length = contour.points.length := by
  simp [contourMmOf]

/-! ### Serializer layout -/

theorem headerBytes_length : headerBytes.length = 80 := rfl

theorem u32leVal_u32le (k : ℕ) : u32leVal (u32le k) = k % 4294967296 := by
  simp only [u32le, u32leVal]
  omega

theorem triangleRecord_length (enc : ℚ → List ℕ) (henc : ∀ q, (enc q).length = 4)
    (t : Triangle) : (triangleRecord enc t).length = 50 := by
  simp [triangleRecord, u16le, henc]

theorem records_flatten_length (enc : ℚ → List ℕ) (henc : ∀ q, (enc q).length = 4)
    (L : List Triangle) :
    ((L.map (triangleRecord enc)).flatten).length = 50 * L.length := by
  induction L with
  | nil => rfl
  | cons t rest IH =>
      rw [List.map_cons, List.flatten_cons, List.length_append,
        triangleRecord_length enc henc, IH, List.length_cons]
      ring

theorem serializeSTL_length (enc : ℚ → List ℕ) (henc : ∀ q, (enc q).length = 4)
    (L : List Triangle) : (serializeSTL enc L).length = 84 + 50 * L.length := by
  rw [serializeSTL, List.length_append, List.length_append,
    records_flatten_length enc henc, headerBytes_length]
  rfl

theorem serializeSTL_take80 (enc : ℚ → List ℕ) (L : List Triangle) :
    (serializeSTL enc L).take 80 = headerBytes := by
  rw [serializeSTL, List.append_assoc, show (80 : ℕ) = headerBytes.length from rfl,
    List.take_left]

theorem serializeSTL_count (enc : ℚ → List ℕ) (L : List Triangle) :
    ((serializeSTL enc L).drop 80).take 4 = u32le L.length := by
  rw [serializeSTL, List.append_assoc, show (80 : ℕ) = headerBytes.length from rfl,
    List.drop_left, show (4 : ℕ) = (u32le L.length).length from rfl, List.take_left]

theorem flatten_drop_records (enc : ℚ → List ℕ) (henc : ∀ q, (enc q).length = 4) :
    ∀ (L : List Triangle) (i : ℕ), i ≤ L.length →
      ((L.map (triangleRecord enc)).flatten).drop (50 * i)
        = ((L.drop i).map (triangleRecord enc)).flatten := by
  intro L
  induction L with
  | nil =>
      intro i hi
      simp only [List.length_nil] at hi
      have : i = 0 := by omega
      subst this
      rfl
  | cons t rest IH =>
      intro i hi
      cases i with
      | zero => rfl
      | succ k =>
          rw [List.map_cons, List.flatten_cons,
            show 50 * (k + 1) = (triangleRecord enc t).length + 50 * k from by
              rw [triangleRecord_length enc henc]
              ring,
            List.drop_append]
          exact IH k (by
            simp only [List.length_cons] at hi
            omega)

theorem serializeSTL_drop84 (enc : ℚ → List ℕ) (L : List Triangle) :
    (serializeSTL enc L).drop 84 = (L.map (triangleRecord enc)).flatten := by
  rw [serializeSTL,
    show (84 : ℕ) = (headerBytes ++ u32le L.length).length from by
      rw [List.length_append, headerBytes_length]
      rfl,
    List.drop_left]

theorem serializeSTL_drop_record (enc : ℚ → List ℕ) (henc : ∀ q, (enc q).length = 4)
    (L : List Triangle) (i : ℕ) (hi : i < L.length) :
    (serializeSTL enc L).drop (84 + 50 * i)
      = triangleRecord enc (L.getD i default)
        ++ ((L.drop (i + 1)).map (triangleRecord enc)).flatten := by
  have hdd : (serializeSTL enc L).drop (84 + 50 * i)
      = ((serializeSTL enc L).drop 84).drop (50 * i) := by
    rw [List.drop_drop]
  rw [hdd, serializeSTL_drop84, flatten_drop_records enc henc L i (le_of_lt hi),
    List.drop_eq_getElem_cons hi, List.map_cons, List.flatten_cons,
    List.getD_eq_getElem L default hi]

theorem serializeSTL_record (enc : ℚ → List ℕ) (henc : ∀ q, (enc q).length = 4)
    (L : List Triangle) (i : ℕ) (hi : i < L.length) :
    ((serializeSTL enc L).drop (84 + 50 * i)).take 50
      = triangleRecord enc (L.getD i default) := by
  rw [serializeSTL_drop_record enc henc L i hi,
    show (50 : ℕ) = (triangleRecord enc (L.getD i default)).length from
      (triangleRecord_length enc henc _).symm,
    List.take_left]

theorem drop_enc_block (enc : ℚ → List ℕ) (henc : ∀ q, (enc q).length = 4)
    (x : ℚ) (rest : List ℕ) (k : ℕ) : (enc x ++ rest).drop (4 + k) = rest.drop k := by
  rw [show 4 + k = (enc x).length + k from by rw [henc], List.drop_append]

/-- The last two bytes of every triangle record are the zero attribute field. -/
theorem triangleRecord_drop48 (enc : ℚ → List ℕ) (henc : ∀ q, (enc q).length = 4)
    (t : Triangle) : (triangleRecord enc t).drop 48 = [0, 0] := by
  simp only [triangleRecord, List.append_assoc]
  rw [show (48 : ℕ) = 4 + 44 from rfl, drop_enc_block enc henc,
    show (44 : ℕ) = 4 + 40 from rfl, drop_enc_block enc henc,
    show (40 : ℕ) = 4 + 36 from rfl, drop_enc_block enc henc,
    show (36 : ℕ) = 4 + 32 from rfl, drop_enc_block enc henc,
    show (32 : ℕ) = 4 + 28 from rfl, drop_enc_block enc henc,
    show (28 : ℕ) = 4 + 24 from rfl, drop_enc_block enc henc,
    show (24 : ℕ) = 4 + 20 from rfl, drop_enc_block enc henc,
    show (20 : ℕ) = 4 + 16 from rfl, drop_enc_block enc henc,
    show (16 : ℕ) = 4 + 12 from rfl, drop_enc_block enc henc,
    show (12 : ℕ) = 4 + 8 from rfl, drop_enc_block enc henc,
    show (8 : ℕ) = 4 + 4 from rfl, drop_enc_block enc henc,
    show (4 : ℕ) = 4 + 0 from rfl, drop_enc_block enc henc]
  rfl

theorem serializeSTL_attribute (enc : ℚ → List ℕ) (henc : ∀ q, (enc q).length = 4)
    (L : List Triangle) (i : ℕ) (hi : i < L.length) :
    ((serializeSTL enc L).drop (84 + 50 * i + 48)).take 2 = [0, 0] := by
  have hdd : (serializeSTL enc L).drop (84 + 50 * i + 48)
      = ((serializeSTL enc L).drop (84 + 50 * i)).drop 48 := by
    rw [List.drop_drop]
  rw [hdd, serializeSTL_drop_record enc henc L i hi,
    List.drop_append_of_le_length (by
      rw [triangleRecord_length enc henc]
      omega),
    triangleRecord_drop48 enc henc]
  rfl

end JigSnap

namespace JigSnap

/-! ## Claim theorems (calibration and jig sizing) -/

/-- **C5.** `calculatePixelsPerMm` computes the long-axis and short-axis pixel
lengths as the max/min of the detected quad's width/height fields, divides each
by the corresponding known physical long/short paper dimension and averages the
two ratios (i.e. it coincides with the spec's `calibrateFromReference` formula);
and a 2159×2794 px quad representing a 215.9mm×279.4mm (US-letter) sheet
yields exactly 10 pixels per mm. -/
theorem C5_calculatePixelsPerMm_spec_and_example :
    (∀ (p : A4Paper) (ps : PaperSize),
      calculatePixelsPerMm p ps
        = calibrateFromReferenceSpec p.width p.height
            (paperSizeWidth ps) (paperSizeHeight ps))
    ∧ calculatePixelsPerMm ⟨[], 2159, 2794⟩ .letter = 10 := by
  constructor
  · intro p ps
    rfl
  · norm_num [calculatePixelsPerMm, paperSizeWidth, paperSizeHeight]

/-- **C6.** `computeSquareJigSizeMm` converts the pixel bounds to millimetres,
takes the larger dimension, adds 2·10mm of padding and rounds up (never down)
to the next multiple of 10: the result is a multiple of 10 lying in
`[maxDim + 20, maxDim + 30)`; and the concrete input
`{width := 105, height := 60}` at 10 px/mm yields exactly 40. -/
theorem C6_computeSquareJigSizeMm_rounds_up :
    (∀ (b : SizeWH) (ppm : ℚ),
      (∃ k : ℤ, computeSquareJigSizeMm b ppm = 10 * k)
        ∧ max (b.width / ppm) (b.height / ppm) + 20 ≤ computeSquareJigSizeMm b ppm
        ∧ computeSquareJigSizeMm b ppm < max (b.width / ppm) (b.height / ppm) + 30)
    ∧ computeSquareJigSizeMm ⟨105, 60⟩ 10 = 40 := by
  constructor
  · intro b ppm
    have hs : computeSquareJigSizeMm b ppm
        = ((⌈(max (b.width / ppm) (b.height / ppm) + 20) / 10⌉ : ℤ) : ℚ) * 10 := rfl
    have h1 := Int.le_ceil ((max (b.width / ppm) (b.height / ppm) + 20) / 10)
    have h2 := Int.ceil_lt_add_one ((max (b.width / ppm) (b.height / ppm) + 20) / 10)
    rw [hs]
    refine ⟨⟨⌈(max (b.width / ppm) (b.height / ppm) + 20) / 10⌉, by ring⟩, ?_, ?_⟩
    · linarith
    · linarith
  · have : (⌈(max ((105 : ℚ) / 10) ((60 : ℚ) / 10) + 20) / 10⌉ : ℤ) = 4 := by
      rw [Int.ceil_eq_iff]
      norm_num
    have hs : computeSquareJigSizeMm ⟨105, 60⟩ 10
        = ((⌈(max ((105 : ℚ) / 10) ((60 : ℚ) / 10) + 20) / 10⌉ : ℤ) : ℚ) * 10 := rfl
    rw [hs, this]
    norm_num

/-! ## Claim theorems (STL export) -/

/-- **C1.** The serialized binary buffer of `generateSTL` is exactly
`84 + 50 * triangleCount` bytes: an 80-byte header, the little-endian 32-bit
triangle count at offset 80, and for every triangle `i` a 50-byte record at
offset `84 + 50·i` holding the three normal floats, the nine vertex floats
(each as its 4 little-endian bytes via `enc`), and a trailing little-endian
16-bit attribute field equal to 0. -/
theorem C1_generateSTL_binary_layout (sq : ℚ → ℚ) (enc : ℚ → List ℕ)
    (contour : Contour) (jigSize : SizeWH) (config : JigConfig) (pixelsPerMm : ℚ)
    (henc : ∀ q, (enc q).length = 4) :
    (generateSTL sq enc contour jigSize config pixelsPerMm).length
      = 84 + 50 * (generateTriangles sq contour jigSize config pixelsPerMm).length
    ∧ (generateSTL sq enc contour jigSize config pixelsPerMm).take 80 = headerBytes
    ∧ ((generateSTL sq enc contour jigSize config pixelsPerMm).drop 80).take 4
      = u32le (generateTriangles sq contour jigSize config pixelsPerMm).length
    ∧ ∀ i, i < (generateTriangles sq contour jigSize config pixelsPerMm).length →
        ((generateSTL sq enc contour jigSize config pixelsPerMm).drop
            (84 + 50 * i)).take 50
          = triangleRecord enc
              ((generateTriangles sq contour jigSize config pixelsPerMm).getD i default)
        ∧ ((generateSTL sq enc contour jigSize config pixelsPerMm).drop
            (84 + 50 * i + 48)).take 2 = [0, 0] :=
  ⟨serializeSTL_length enc henc _, serializeSTL_take80 enc _, serializeSTL_count enc _,
    fun i hi =>
      ⟨serializeSTL_record enc henc _ i hi, serializeSTL_attribute enc henc _ i hi⟩⟩

set_option maxRecDepth 100000 in
unseal Rat.inv Rat.mul Rat.add Rat.sub in
/-- Witness for C1: a 4-byte-per-float encoder and a concrete mesh (triangle
contour, 20×20 jig, 5mm padding, 3mm thickness, 1mm pocket) — the mesh has 23
triangles and the buffer exactly `84 + 50·23 = 1234` bytes. -/
theorem C1_generateSTL_binary_layout_witness :
    ((fun _ : ℚ => [0, 0, 0, 0]) 0).length = 4
    ∧ (generateSTL id (fun _ => [0, 0, 0, 0]) ⟨[⟨0, 0⟩, ⟨6, 0⟩, ⟨0, 6⟩], 18⟩
        ⟨20, 20⟩ ⟨5, 3, some 1⟩ 1).length
      = 84 + 50 * (generateTriangles id ⟨[⟨0, 0⟩, ⟨6, 0⟩, ⟨0, 6⟩], 18⟩
          ⟨20, 20⟩ ⟨5, 3, some 1⟩ 1).length
    ∧ (generateTriangles id ⟨[⟨0, 0⟩, ⟨6, 0⟩, ⟨0, 6⟩], 18⟩
        ⟨20, 20⟩ ⟨5, 3, some 1⟩ 1).length = 23 :=
  ⟨rfl,
    (C1_generateSTL_binary_layout id (fun _ => [0, 0, 0, 0])
      ⟨[⟨0, 0⟩, ⟨6, 0⟩, ⟨0, 6⟩], 18⟩ ⟨20, 20⟩ ⟨5, 3, some 1⟩ 1 (fun _ => rfl)).1,
    by decide⟩

set_option maxRecDepth 100000 in
unseal Rat.inv Rat.mul Rat.add Rat.sub in
/-- **C2.** The claim asserts the mesh is a watertight closed solid (every
edge shared by exactly two triangles) in both the blind-pocket and the
through-cut case.  The code emits no pocket-floor face (and the bottom face
is the full rectangle, without the hole), so the bottom rim of the inner
cutout walls is an open boundary: at the concrete failing input below, the
inner-wall bottom-rim edge between the first two contour vertices lies in
exactly **one** triangle — in the blind-pocket case (pocket depth 1mm of a
3mm slab, rim at `z = 2`) and in the through-cut case (rim at `z = 0`)
alike.  The mesh is therefore not watertight. -/
theorem C2_mesh_not_watertight_pocket_rim :
    edgeCount (generateTriangles id ⟨[⟨0, 0⟩, ⟨6, 0⟩, ⟨0, 6⟩], 18⟩
        ⟨20, 20⟩ ⟨5, 3, some 1⟩ 1) ⟨-2, -2, 2⟩ ⟨4, -2, 2⟩ = 1
    ∧ edgeCount (generateTriangles id ⟨[⟨0, 0⟩, ⟨6, 0⟩, ⟨0, 6⟩], 18⟩
        ⟨20, 20⟩ ⟨5, 3, none⟩ 1) ⟨-2, -2, 0⟩ ⟨4, -2, 0⟩ = 1 := by
  constructor
  · decide
  · decide

/-- **C3.** Mesh part counts: 2 bottom-face triangles (the triangulation of
the convex jig rectangle), `2 × 4` outer side-wall triangles, `2 × n` inner
side-wall triangles for an `n`-point contour; the mesh is exactly the
concatenation of the four parts; and the triangle count written in the
buffer's header is the number of 50-byte records actually emitted. -/
theorem C3_mesh_counts (sq : ℚ → ℚ) (enc : ℚ → List ℕ) (contour : Contour)
    (jigSize : SizeWH) (config : JigConfig) (pixelsPerMm : ℚ)
    (h3 : 3 ≤ contour.points.length)
    (hw : 0 < jigSize.width + config.paddingMm * 2)
    (hh : 0 < jigSize.height + config.paddingMm * 2)
    (henc : ∀ q, (enc q).length = 4) :
    (bottomFaceTris (jigRect jigSize config)).length = 2
    ∧ (outerWallTris sq (jigRect jigSize config) config.thicknessMm).length = 2 * 4
    ∧ (innerWallTris sq (contourMmOf contour pixelsPerMm)
          (config.thicknessMm - config.pocketDepthMm.getD config.thicknessMm)
          config.thicknessMm).length = 2 * contour.points.length
    ∧ generateTriangles sq contour jigSize config pixelsPerMm
        = bottomFaceTris (jigRect jigSize config)
          ++ topFaceTris (jigRect jigSize config) (contourMmOf contour pixelsPerMm)
              config.thicknessMm
          ++ outerWallTris sq (jigRect jigSize config) config.thicknessMm
          ++ innerWallTris sq (contourMmOf contour pixelsPerMm)
              (config.thicknessMm - config.pocketDepthMm.getD config.thicknessMm)
              config.thicknessMm
    ∧ ((generateSTL sq enc contour jigSize config pixelsPerMm).drop 80).take 4
        = u32le (generateTriangles sq contour jigSize config pixelsPerMm).length
    ∧ ((generateTriangles sq contour jigSize config pixelsPerMm).length < 4294967296 →
        u32leVal (((generateSTL sq enc contour jigSize config pixelsPerMm).drop 80).take 4)
          = (generateTriangles sq contour jigSize config pixelsPerMm).length)
    ∧ (generateSTL sq enc contour jigSize config pixelsPerMm).length
        = 84 + 50 * (generateTriangles sq contour jigSize config pixelsPerMm).length := by
  refine ⟨bottomFaceTris_length jigSize config hw hh, ?_, ?_, rfl,
    serializeSTL_count enc _, ?_, serializeSTL_length enc henc _⟩
  · rw [outerWallTris_length]; rfl
  · rw [innerWallTris_length, contourMmOf_length]
  · intro hlt
    have hc : ((generateSTL sq enc contour jigSize config pixelsPerMm).drop 80).take 4
        = u32le (generateTriangles sq contour jigSize config pixelsPerMm).length :=
      serializeSTL_count enc _
    rw [hc, u32leVal_u32le, Nat.mod_eq_of_lt hlt]

set_option maxRecDepth 100000 in
unseal Rat.inv Rat.mul Rat.add Rat.sub in
/-- Witness for C3 at the concrete mesh of the C1 witness: 2 bottom
triangles, 8 outer-wall triangles, 6 inner-wall triangles for the 3-point
contour, and a header count matching the 23 emitted records. -/
theorem C3_mesh_counts_witness :
    (3 ≤ ([⟨0, 0⟩, ⟨6, 0⟩, ⟨0, 6⟩] : List Point).length)
    ∧ (0 : ℚ) < 20 + 5 * 2
    ∧ (bottomFaceTris (jigRect ⟨20, 20⟩ ⟨5, 3, some 1⟩)).length = 2
    ∧ (innerWallTris id (contourMmOf ⟨[⟨0, 0⟩, ⟨6, 0⟩, ⟨0, 6⟩], 18⟩ 1)
        ((3 : ℚ) - 1) 3).length = 2 * 3
    ∧ u32leVal (((generateSTL id (fun _ => [0, 0, 0, 0]) ⟨[⟨0, 0⟩, ⟨6, 0⟩, ⟨0, 6⟩], 18⟩
          ⟨20, 20⟩ ⟨5, 3, some 1⟩ 1).drop 80).take 4)
      = (generateTriangles id ⟨[⟨0, 0⟩, ⟨6, 0⟩, ⟨0, 6⟩], 18⟩
          ⟨20, 20⟩ ⟨5, 3, some 1⟩ 1).length := by
  have h := C3_mesh_counts id (fun _ => [0, 0, 0, 0]) ⟨[⟨0, 0⟩, ⟨6, 0⟩, ⟨0, 6⟩], 18⟩
    ⟨20, 20⟩ ⟨5, 3, some 1⟩ 1 (by decide) (by norm_num) (by norm_num) (fun _ => rfl)
  exact ⟨by decide, by norm_num, h.1, h.2.2.1, h.2.2.2.2.2.1 (by decide)⟩

set_option maxRecDepth 100000 in
unseal Rat.inv Rat.mul Rat.add Rat.sub in
/-- **C4.** The claim asserts `generateSTL` rejects malformed input (a
contour with fewer than 3 points, or a zero-triangle face triangulation) with
a hard error before serializing.  The source has no validation and no error
exit at all: at the concrete failing input below — a degenerate 2-point
contour — it still returns a well-formed `84 + 50·k`-byte buffer encoding a
19-triangle mesh instead of signalling any error. -/
theorem C4_generateSTL_accepts_degenerate_contour :
    (generateTriangles id ⟨[⟨0, 0⟩, ⟨10, 0⟩], 0⟩ ⟨20, 20⟩ ⟨5, 3, none⟩ 1).length = 19
    ∧ (generateSTL id (fun _ => [0, 0, 0, 0]) ⟨[⟨0, 0⟩, ⟨10, 0⟩], 0⟩
        ⟨20, 20⟩ ⟨5, 3, none⟩ 1).length = 84 + 50 * 19 := by
  constructor
  · decide
  · decide

/-! ## Claim theorems (simplification) -/

/-- **C7.** `simplifyContour` is idempotent: for every closed polygon `P` and
tolerance `ε ≥ 0` (and any square-root model with `sq 0 = 0`, as satisfied by
the real `Math.sqrt`), simplifying an already-simplified polygon returns it
unchanged, vertex for vertex. -/
theorem C7_simplifyContour_idempotent (sq : ℚ → ℚ) (hsq : sq 0 = 0)
    (P : List Point) (eps : ℚ) (heps : 0 ≤ eps) :
    simplifyContour sq (simplifyContour sq P eps) eps = simplifyContour sq P eps := by
  by_cases hle : P.length ≤ 3
  · have h1 := simplifyContour_of_le sq eps hle
    rw [h1]
    exact h1
  · push_neg at hle
    have hPne : P ≠ [] := by
      intro h0
      subst h0
      simp at hle
    obtain ⟨S, hS⟩ : ∃ S, rdp sq eps (P ++ [P.headI]) = S := ⟨_, rfl⟩
    have hfirst := simplifyContour_of_gt sq eps P hle
    rw [hS] at hfirst
    by_cases h3 : 3 ≤ S.dropLast.length
    · have hQ : simplifyContour sq P eps = S.dropLast := by
        rw [hfirst, if_pos h3]
      by_cases h4 : S.dropLast.length ≤ 3
      · rw [hQ, simplifyContour_of_le sq eps h4]
      · push_neg at h4
        have hS4 : 4 ≤ S.length := by
          have h3' := h3
          rw [List.length_dropLast] at h3'
          omega
        have hSne : S ≠ [] := by
          intro h0
          rw [h0] at hS4
          simp at hS4
        have hSlast : S.getLastI = P.headI := by
          rw [← hS, rdp_getLastI, getLastI_append_right _ (by simp)]
          rfl
        have hQhead : S.dropLast.headI = P.headI := by
          rw [headI_dropLast (by omega), ← hS, rdp_headI, headI_append_left _ hPne]
        have hclosed2 : S.dropLast ++ [S.dropLast.headI] = S := by
          rw [hQhead, ← hSlast]
          exact dropLast_append_getLastI hSne
        have hsecond := simplifyContour_of_gt sq eps S.dropLast (by omega)
        have hidem : rdp sq eps S = S := by
          rw [← hS]
          exact rdp_idem sq eps hsq heps _
        rw [hQ, hsecond, hclosed2, hidem, if_pos h3]
    · have hQ : simplifyContour sq P eps = P := by
        rw [hfirst, if_neg h3]
      rw [hQ]
      exact hQ

/-- Witness for C7: idempotence at a concrete 5-point polygon, unit tolerance
and the identity square-root model. -/
theorem C7_simplifyContour_idempotent_witness :
    (id (0 : ℚ) = 0) ∧ (0 : ℚ) ≤ 1
    ∧ simplifyContour id
        (simplifyContour id [⟨0,0⟩, ⟨10,0⟩, ⟨10,10⟩, ⟨5,30⟩, ⟨0,10⟩] 1) 1
      = simplifyContour id [⟨0,0⟩, ⟨10,0⟩, ⟨10,10⟩, ⟨5,30⟩, ⟨0,10⟩] 1 :=
  ⟨rfl, by norm_num,
    C7_simplifyContour_idempotent id rfl [⟨0,0⟩, ⟨10,0⟩, ⟨10,10⟩, ⟨5,30⟩, ⟨0,10⟩] 1
      (by norm_num)⟩

/-- **C8.** `simplifyContour` never returns a degenerate polygon: inputs with
at most 3 points are returned unchanged, and for longer inputs the result has
at least 3 vertices for every tolerance — when the RDP output would collapse
below 3 points, the original polygon is returned instead. -/
theorem C8_simplifyContour_no_degenerate (sq : ℚ → ℚ) (points : List Point)
    (tolerance : ℚ) :
    (points.length ≤ 3 → simplifyContour sq points tolerance = points)
    ∧ (3 < points.length → 3 ≤ (simplifyContour sq points tolerance).length) := by
  constructor
  · intro h
    exact simplifyContour_of_le sq tolerance h
  · intro h
    rw [simplifyContour_of_gt sq tolerance points h]
    by_cases h3 : 3 ≤ (rdp sq tolerance (points ++ [points.headI])).dropLast.length
    · rw [if_pos h3]
      exact h3
    · rw [if_neg h3]
      omega

unseal Rat.inv Rat.mul Rat.add Rat.sub in
/-- Witness for C8: a 3-point polygon is returned unchanged, and a 4-point
polygon simplified at tolerance 100 (which collapses the RDP output) still
yields at least 3 vertices. -/
theorem C8_simplifyContour_no_degenerate_witness :
    simplifyContour id [⟨0,0⟩, ⟨4,0⟩, ⟨0,3⟩] 1 = [⟨0,0⟩, ⟨4,0⟩, ⟨0,3⟩]
    ∧ 3 ≤ (simplifyContour id [⟨0,0⟩, ⟨4,0⟩, ⟨4,3⟩, ⟨0,3⟩] 100).length :=
  ⟨(C8_simplifyContour_no_degenerate id [⟨0,0⟩, ⟨4,0⟩, ⟨0,3⟩] 1).1 (by decide),
    (C8_simplifyContour_no_degenerate id [⟨0,0⟩, ⟨4,0⟩, ⟨4,3⟩, ⟨0,3⟩] 100).2 (by decide)⟩

/-! ## Claim theorems (deduplication) -/

/-- **C9.** Dedup convergence: for two candidates whose bounding-box IoU
exceeds the 0.5 threshold and whose polygons differ in vertex count, the
deduplication pass of `detectAllContours` keeps a single surviving candidate:
the accepted first entry is replaced by the later candidate's
contour/area/method exactly when the later one has strictly more vertices, and
the later candidate is discarded otherwise — so the survivor's polygon is the
one with the larger vertex count of the two. -/
theorem C9_dedupe_keeps_higher_vertex_count (a b : Cand)
    (hiou : 1/2 < calculateBoundingBoxIoU b.contour a.contour)
    (hne : a.contour.length ≠ b.contour.length) :
    dedupe [a, b]
      = [if a.contour.length < b.contour.length then ⟨b.contour, b.area, b.method⟩ else a]
    ∧ (dedupe [a, b]).map (fun c => c.contour.length)
      = [max a.contour.length b.contour.length] := by
  have h2 : dedupe [a, b] = dedupeStep [a] b := rfl
  rcases Nat.lt_or_ge a.contour.length b.contour.length with hlt | hge
  · have hscan : dedupeScan b [a] = ([⟨b.contour, b.area, b.method⟩], true) := by
      unfold dedupeScan
      rw [if_pos hiou, if_pos hlt]
    have hd : dedupe [a, b] = [⟨b.contour, b.area, b.method⟩] := by
      rw [h2]
      unfold dedupeStep
      rw [hscan]
      rfl
    rw [hd, if_pos hlt]
    exact ⟨rfl, by simp [Nat.max_eq_right (Nat.le_of_lt hlt)]⟩
  · have hnlt : ¬ a.contour.length < b.contour.length := Nat.not_lt.mpr hge
    have hscan : dedupeScan b [a] = ([a], true) := by
      unfold dedupeScan
      rw [if_pos hiou, if_neg hnlt]
    have hd : dedupe [a, b] = [a] := by
      rw [h2]
      unfold dedupeStep
      rw [hscan]
      rfl
    rw [hd, if_neg hnlt]
    exact ⟨rfl, by simp [Nat.max_eq_left hge]⟩

unseal Rat.inv Rat.mul Rat.add Rat.sub in
/-- Witness for C9: two concrete overlapping candidates (a 4-point square and
a 5-point polygon over almost the same bounding box) merge into the 5-point
one. -/
theorem C9_dedupe_keeps_higher_vertex_count_witness :
    (1/2 < calculateBoundingBoxIoU
        [⟨0,0⟩, ⟨10,0⟩, ⟨10,10⟩, ⟨5,11⟩, ⟨0,10⟩]
        [⟨0,0⟩, ⟨10,0⟩, ⟨10,10⟩, ⟨0,10⟩])
    ∧ dedupe [⟨[⟨0,0⟩, ⟨10,0⟩, ⟨10,10⟩, ⟨0,10⟩], 100, "canny"⟩,
              ⟨[⟨0,0⟩, ⟨10,0⟩, ⟨10,10⟩, ⟨5,11⟩, ⟨0,10⟩], 105, "adaptive"⟩]
      = [⟨[⟨0,0⟩, ⟨10,0⟩, ⟨10,10⟩, ⟨5,11⟩, ⟨0,10⟩], 105, "adaptive"⟩] := by
  refine ⟨by decide, ?_⟩
  have := (C9_dedupe_keeps_higher_vertex_count
      ⟨[⟨0,0⟩, ⟨10,0⟩, ⟨10,10⟩, ⟨0,10⟩], 100, "canny"⟩
      ⟨[⟨0,0⟩, ⟨10,0⟩, ⟨10,10⟩, ⟨5,11⟩, ⟨0,10⟩], 105, "adaptive"⟩
      (by decide) (by decide)).1
  simpa using this

/-! ## Claim theorems (offsetting) -/

/-- **C10.** For every polygon with at least 3 points and nonzero offset
distance, every coordinate of every point returned by `offsetContour` is an
integer (each displaced coordinate is rounded), for every square-root model
`sq`; the fewer-than-3-point and zero-offset cases return the input list
itself, unrounded. -/
theorem C10_offsetContour_rounds_to_integers (sq : ℚ → ℚ) (points : List Point)
    (offsetPx : ℚ) :
    (3 ≤ points.length → offsetPx ≠ 0 →
      ∀ p ∈ offsetContour sq points offsetPx,
        (∃ a : ℤ, p.x = (a : ℚ)) ∧ (∃ b : ℤ, p.y = (b : ℚ)))
    ∧ (points.length < 3 ∨ offsetPx = 0 →
        offsetContour sq points offsetPx = points) := by
  constructor
  · intro h3 hoff p hp
    have hcond : ¬ (points.length < 3 ∨ offsetPx = 0) := by
      push_neg
      exact ⟨by omega, hoff⟩
    rw [offsetContour, if_neg hcond] at hp
    rcases List.mem_map.mp hp with ⟨i, -, rfl⟩
    exact ⟨⟨_, rfl⟩, ⟨_, rfl⟩⟩
  · intro hcond
    rw [offsetContour, if_pos hcond]

unseal Rat.inv Rat.mul Rat.add Rat.sub in
/-- Witness for C10: offsetting a concrete right triangle with non-integer
input coordinates by 1 yields integer coordinates, and a zero offset is the
identity. -/
theorem C10_offsetContour_rounds_to_integers_witness :
    (3 ≤ ([⟨0,0⟩, ⟨4,1/2⟩, ⟨0,3⟩] : List Point).length)
    ∧ (∃ a : ℤ, ((offsetContour id [⟨0,0⟩, ⟨4,1/2⟩, ⟨0,3⟩] 1).getD 0 default).x = (a : ℚ))
    ∧ offsetContour id [⟨0,0⟩, ⟨4,1/2⟩, ⟨0,3⟩] 0 = [⟨0,0⟩, ⟨4,1/2⟩, ⟨0,3⟩] := by
  refine ⟨by decide, ?_, ?_⟩
  · have hmem : (offsetContour id [⟨0,0⟩, ⟨4,1/2⟩, ⟨0,3⟩] 1).getD 0 default
        ∈ offsetContour id [⟨0,0⟩, ⟨4,1/2⟩, ⟨0,3⟩] 1 := by
      decide
    exact ((C10_offsetContour_rounds_to_integers id [⟨0,0⟩, ⟨4,1/2⟩, ⟨0,3⟩] 1).1
      (by decide) (by decide) _ hmem).1
  · exact (C10_offsetContour_rounds_to_integers id [⟨0,0⟩, ⟨4,1/2⟩, ⟨0,3⟩] 0).2
      (Or.inr rfl)

end JigSnap
